import Mathlib

/-!
# Inventory manager (`main.cpp`): shallow embedding and verified properties

The program keeps a `std::vector<Item>` and an `int next_id` as globals, loads
them from `inventory.csv`, and runs a line-oriented command loop on `std::cin`.

Modelling conventions:

* `std::string` is `Str = List Char`; `int` is `Int` kept inside the 32-bit range,
  arithmetic that can leave the range is wrapped with `wrap32`;
* an input stream (`std::cin`, the `std::ifstream`, the per-line
  `std::stringstream`) is `IStream = Option Str`: `some rest` is a stream in the
  good state with `rest` still unread, `none` is a stream whose `eofbit` or
  `failbit` is set;
* `double` is the type `Double` of IEEE-754 binary64 values, with `strtod`
  rounding to nearest-even and `operator<<` printing as `%.6g`;
* a thrown C++ exception is `none` in the conversion functions; inside a command
  an exception that nothing catches ends the process (`Outcome.crash`), and a
  prompt loop that can never leave is `Outcome.hang`.
-/

namespace Inventory

abbrev Str := List Char

/-! ## Machine integers -/

def INT_MIN : Int := -2147483648

def INT_MAX : Int := 2147483647

/-- Two's-complement wrap of a mathematical integer into the range of `int`. -/
def wrap32 (x : Int) : Int := (x + 2147483648) % 4294967296 - 2147483648

/-! ## Character classes and digit strings (C locale) -/

def isspace (c : Char) : Bool :=
  c = ' ' || c = '\t' || c = '\n' || c = '\x0b' || c = '\x0c' || c = '\r'

def isdigit (c : Char) : Bool := 48 ≤ c.toNat && c.toNat ≤ 57

def isxdigit (c : Char) : Bool :=
  isdigit c || (97 ≤ c.toNat && c.toNat ≤ 102) || (65 ≤ c.toNat && c.toNat ≤ 70)

def isalpha (c : Char) : Bool :=
  (97 ≤ c.toNat && c.toNat ≤ 122) || (65 ≤ c.toNat && c.toNat ≤ 90)

def tolower (c : Char) : Char :=
  if 65 ≤ c.toNat && c.toNat ≤ 90 then Char.ofNat (c.toNat + 32) else c

/-- A character of the `n-char-sequence` of a NaN: digit, letter or underscore. -/
def isnchar (c : Char) : Bool := isdigit c || isalpha c || c = '_'

def digitVal (c : Char) : Nat := c.toNat - 48

def hexVal (c : Char) : Nat :=
  if isdigit c then c.toNat - 48
  else if 97 ≤ c.toNat then c.toNat - 87
  else c.toNat - 55

/-- Value of a string of decimal digits, most significant first. -/
def ofDigits (ds : Str) : Nat := ds.foldl (fun acc c => acc * 10 + digitVal c) 0

/-- Value of a string of hexadecimal digits, most significant first. -/
def ofHexDigits (ds : Str) : Nat := ds.foldl (fun acc c => acc * 16 + hexVal c) 0

/-- The C string seen through `s.c_str()`: the bytes before the first NUL. -/
def c_str (s : Str) : Str := s.takeWhile (fun c => c ≠ '\x00')

/-- An optional leading `+` or `-`: whether it was `-`, and what follows it. -/
def scanSign : Str → Bool × Str
  | '-' :: r => (true, r)
  | '+' :: r => (false, r)
  | cs => (false, cs)

/-! ## `std::stoi` -/

/-- Model of `std::stoi(s)`: `strtol` in base 10 on `s.c_str()`. Leading white
space is skipped, an optional sign and the longest run of digits are read, and
what follows is ignored. `none` stands for the two exceptions it throws:
`std::invalid_argument` when there is no digit, `std::out_of_range` when the
value does not fit an `int`. -/
def stoi (s : Str) : Option Int :=
  let sb := scanSign ((c_str s).dropWhile isspace)
  let ds := sb.2.takeWhile isdigit
  if ds = [] then none
  else
    let v : Int := if sb.1 then -(ofDigits ds : Int) else (ofDigits ds : Int)
    if INT_MIN ≤ v ∧ v ≤ INT_MAX then some v else none

/-! ## `strtod`: the text it consumes -/

/-- The subject sequence `strtod` recognised. -/
inductive FloatLit
  | inf
  | nan
  | dec (ip fp : Str) (exp : Int)
  | hex (ip fp : Str) (exp : Int)
  deriving DecidableEq, Repr

/-- Case-insensitive test that `cs` starts with the lower-case word `w`. -/
def prefixCI : Str → Str → Bool
  | [], _ => true
  | _ :: _, [] => false
  | w :: ws, c :: cs => tolower c = w && prefixCI ws cs

/-- An optional exponent part: the marker (`e`/`E` or `p`/`P`), an optional sign
and at least one decimal digit. A marker not followed by a digit is not consumed. -/
def scanExp (isMark : Char → Bool) (cs : Str) : Int × Str :=
  match cs with
  | [] => (0, [])
  | m :: r =>
    if isMark m then
      let sb := scanSign r
      let ds := sb.2.takeWhile isdigit
      if ds = [] then (0, cs)
      else ((if sb.1 then -(ofDigits ds : Int) else (ofDigits ds : Int)), sb.2.dropWhile isdigit)
    else (0, cs)

/-- A mantissa: digits, optionally a radix point and more digits; the integer
digits, the fraction digits and the unread rest. -/
def scanMantissa (isd : Char → Bool) (cs : Str) : Str × Str × Str :=
  let ip := cs.takeWhile isd
  match cs.dropWhile isd with
  | '.' :: t => (ip, t.takeWhile isd, t.dropWhile isd)
  | r => (ip, [], r)

/-- A floating constant: a mantissa, which needs at least one digit, and an
optional exponent part; `none` when there is no digit at all. -/
def scanNumber (isd isMark : Char → Bool) (mk : Str → Str → Int → FloatLit) (cs : Str) :
    Option (FloatLit × Str) :=
  let m := scanMantissa isd cs
  if m.1 = [] ∧ m.2.1 = [] then none
  else
    let e := scanExp isMark m.2.2
    some (mk m.1 m.2.1 e.1, e.2)

/-- A decimal floating constant. -/
def scanDec (cs : Str) : Option (FloatLit × Str) :=
  scanNumber isdigit (fun c => c = 'e' || c = 'E') FloatLit.dec cs

/-- A hexadecimal floating constant after its `0x`; `none` when no hexadecimal
digit follows (the caller then reads the `0` alone). -/
def scanHex (cs : Str) : Option (FloatLit × Str) :=
  scanNumber isxdigit (fun c => c = 'p' || c = 'P') FloatLit.hex cs

/-- After `nan`: an optional `(n-char-sequence)`; without the closing bracket
only the `nan` is taken. -/
def scanNanPayload (cs : Str) : Str :=
  match cs with
  | '(' :: t =>
    match t.dropWhile isnchar with
    | ')' :: r => r
    | _ => cs
  | _ => cs

/-- The subject sequence after white space and sign: `infinity`, `inf`, `nan`, a
hexadecimal or a decimal constant, tried in this order; the constant and the unread
rest. -/
def scanBody (b : Str) : Option (FloatLit × Str) :=
  if prefixCI ['i', 'n', 'f', 'i', 'n', 'i', 't', 'y'] b then some (FloatLit.inf, b.drop 8)
  else if prefixCI ['i', 'n', 'f'] b then some (FloatLit.inf, b.drop 3)
  else if prefixCI ['n', 'a', 'n'] b then some (FloatLit.nan, scanNanPayload (b.drop 3))
  else
    let hx : Option (FloatLit × Str) :=
      match b with
      | '0' :: x :: r => if x = 'x' ∨ x = 'X' then scanHex r else none
      | _ => none
    match hx with
    | some r => some r
    | none => scanDec b

/-- Model of the scanning part of `strtod`: white space, sign, subject sequence.
Returns the sign, the constant and the unread rest (where `*end` points); `none`
when no conversion is done, in which case `end` is the start of the string. -/
def strtod_scan (s : Str) : Option (Bool × FloatLit × Str) :=
  let sb := scanSign (s.dropWhile isspace)
  match scanBody sb.2 with
  | some (l, r) => some (sb.1, l, r)
  | none => none

/-! ## `double`: values, `strtod` rounding, `%.6g` printing -/

/-- An IEEE-754 binary64 value. `fin neg m e` is `(-1)^neg * m * 2^e` in canonical
form: `2^52 ≤ m < 2^53` with `-1074 ≤ e ≤ 971` for a normal number, `m < 2^52`
with `e = -1074` for a subnormal number or a zero. -/
inductive Double
  | fin (neg : Bool) (m : Nat) (e : Int)
  | inf (neg : Bool)
  | nan (neg : Bool)
  deriving DecidableEq, Repr

/-- The value `0.0`. -/
def Double.zero : Double := Double.fin false 0 (-1074)

/-- Position of the leading one bit of `n`, with `fuel` bounding the search. -/
def log2Aux : Nat → Nat → Nat
  | 0, _ => 0
  | fuel + 1, n => if n < 2 then 0 else log2Aux fuel (n / 2) + 1

/-- Floor of the binary logarithm (`0` at `0`). -/
def log2 (n : Nat) : Nat := log2Aux n n

/-- Round the non-negative rational `n / d` to the nearest binary64 value, ties to
even. The flag is `ERANGE` as glibc sets it: on overflow, and on a result that is
tiny and inexact. -/
def roundBinary64 (neg : Bool) (n d : Nat) : Double × Bool :=
  if n = 0 then (Double.fin neg 0 (-1074), false)
  else
    let t : Int := (log2 n : Int) - (log2 d : Int)
    let k : Int := if d * 2 ^ t.toNat ≤ n * 2 ^ (-t).toNat then t else t - 1
    let u : Int := max (k - 52) (-1074)
    let a := n * 2 ^ (-u).toNat
    let b := d * 2 ^ u.toNat
    let q := a / b
    let r := a % b
    let m := if b < 2 * r then q + 1 else if 2 * r = b then q + q % 2 else q
    let mu : Nat × Int := if m = 2 ^ 53 then (2 ^ 52, u + 1) else (m, u)
    if 971 < mu.2 then (Double.inf neg, true)
    else (Double.fin neg mu.1 mu.2, decide (r ≠ 0) && decide (mu.1 < 2 ^ 52))

/-- The value `strtod` returns for a recognised constant, with its `ERANGE` flag. -/
def strtod_value (neg : Bool) : FloatLit → Double × Bool
  | FloatLit.inf => (Double.inf neg, false)
  | FloatLit.nan => (Double.nan neg, false)
  | FloatLit.dec ip fp exp =>
    let e10 : Int := exp - (fp.length : Int)
    roundBinary64 neg (ofDigits (ip ++ fp) * 10 ^ e10.toNat) (10 ^ (-e10).toNat)
  | FloatLit.hex ip fp exp =>
    let e2 : Int := exp - 4 * (fp.length : Int)
    roundBinary64 neg (ofHexDigits (ip ++ fp) * 2 ^ e2.toNat) (2 ^ (-e2).toNat)

/-- Model of `std::stod(s)`: `strtod` on `s.c_str()`; `none` stands for
`std::invalid_argument` (no conversion) and `std::out_of_range` (`ERANGE`). -/
def stod (s : Str) : Option Double :=
  match strtod_scan (c_str s) with
  | none => none
  | some (neg, lit, _) =>
    let v := strtod_value neg lit
    if v.2 then none else some v.1

/-- Decimal digits of `n`, most significant first; `fuel` bounds their number. -/
def showNatAux : Nat → Nat → Str → Str
  | 0, _, acc => acc
  | fuel + 1, n, acc =>
    if n < 10 then Char.ofNat (48 + n) :: acc
    else showNatAux fuel (n / 10) (Char.ofNat (48 + n % 10) :: acc)

/-- Decimal representation of a natural number. -/
def showNat (n : Nat) : Str := showNatAux (n + 1) n []

/-- Model of `out << i` for an `int`. -/
def showInt (i : Int) : Str :=
  if i < 0 then '-' :: showNat i.natAbs else showNat i.natAbs

/-- Drop the trailing zeros of a digit string. -/
def stripZeros (ds : Str) : Str := (ds.reverse.dropWhile (fun c => c = '0')).reverse

/-- Digits of the exponent of the scientific style: at least two. -/
def showExp (x : Int) : Str :=
  (if x < 0 then '-' else '+') :: (if x.natAbs < 10 then '0' :: showNat x.natAbs else showNat x.natAbs)

/-- The digits `ds` of a `%g` conversion laid out for the decimal exponent `x`:
scientific style when `x` is below `-4` or at least `6`, fixed style otherwise,
trailing zeros (and a trailing point) removed. -/
def fmtDigits (ds : Str) (x : Int) : Str :=
  if x < -4 ∨ 6 ≤ x then
    let fr := stripZeros (ds.drop 1)
    ds.take 1 ++ (if fr = [] then [] else '.' :: fr) ++ 'e' :: showExp x
  else if 0 ≤ x then
    let fr := stripZeros (ds.drop (x.toNat + 1))
    ds.take (x.toNat + 1) ++ (if fr = [] then [] else '.' :: fr)
  else
    '0' :: '.' :: (List.replicate ((-x).toNat - 1) '0' ++ stripZeros ds)

/-- The conversion `%.6g` of the positive rational `n / d`: six significant digits,
rounded to nearest with ties to even, and laid out by `fmtDigits`. -/
def fmtG (n d : Nat) : Str :=
  let dd : Int := ((showNat n).length : Int) - ((showNat d).length : Int)
  let x0 : Int := if d * 10 ^ dd.toNat ≤ n * 10 ^ (-dd).toNat then dd else dd - 1
  let p : Int := 5 - x0
  let a := n * 10 ^ p.toNat
  let b := d * 10 ^ (-p).toNat
  let q := a / b
  let r := a % b
  let s0 := if b < 2 * r then q + 1 else if 2 * r = b then q + q % 2 else q
  let sx : Nat × Int := if s0 = 10 ^ 6 then (10 ^ 5, x0 + 1) else (s0, x0)
  fmtDigits (showNat sx.1) sx.2

/-- Model of `out << x` for a `double` with the stream defaults (precision 6,
no `floatfield`), that is `printf("%g", x)`. -/
def showDouble : Double → Str
  | Double.nan neg => (if neg then ['-'] else []) ++ ['n', 'a', 'n']
  | Double.inf neg => (if neg then ['-'] else []) ++ ['i', 'n', 'f']
  | Double.fin neg m e =>
    (if neg then ['-'] else []) ++
      (if m = 0 then ['0'] else fmtG (m * 2 ^ e.toNat) (2 ^ (-e).toNat))

/-! ## Input streams -/

/-- An input stream: `some rest` is good with `rest` unread; `none` has `eofbit` or
`failbit` set, so that every later extraction fails. -/
abbrev IStream := Option Str

/-- Model of `std::getline(is, str, delim)`: whether the stream is still usable
afterwards (`!is.fail()`), the new content of `str`, and the new stream. On a
stream that is not good nothing is read and `str` keeps its content. Otherwise
`str` is erased and filled up to the delimiter, which is consumed; reaching the
end of input sets `eofbit`, and `failbit` as well when nothing was extracted. -/
def getline (is : IStream) (str : Str) (delim : Char) : Bool × Str × IStream :=
  match is with
  | none => (false, str, none)
  | some buf =>
    match buf.dropWhile (fun c => c ≠ delim) with
    | _ :: rest => (true, buf.takeWhile (fun c => c ≠ delim), some rest)
    | [] => if buf = [] then (false, [], none) else (true, buf, none)

/-! ## Program state -/

structure Item where
  id : Int
  name : Str
  qty : Int
  price : Double
  deriving DecidableEq, Repr

/-- The globals `items` and `next_id`, the two standard streams, and the content
of the file `inventory.csv` (`none` when the file does not exist). -/
structure State where
  items : List Item
  next_id : Int
  cin : IStream
  cout : Str
  file : Option Str
  deriving DecidableEq, Repr

/-- How a call of a command function ends: it returns, an exception leaves it
uncaught (`std::terminate`), or it stays in a prompt loop for ever. -/
inductive Outcome
  | ok (s : State)
  | crash
  | hang
  deriving DecidableEq, Repr

/-- Program start: empty vector, `next_id = 1`, nothing printed. -/
def State.init (cin : IStream) (file : Option Str) : State :=
  { items := [], next_id := 1, cin := cin, cout := [], file := file }

/-! ## `is_number` -/

/-- Lines 23-28: non-empty, and `strtod` on `s.c_str()` stops at the terminating
NUL. When `strtod` converts nothing, `end` is the start of the C string. -/
def is_number (s : Str) : Bool :=
  if s = [] then false
  else
    match strtod_scan (c_str s) with
    | none => decide (c_str s = [])
    | some (_, _, rest) => decide (rest = [])

/-! ## `load_db` and `save_db` -/

/-- Lines 36-58: the body of the read loop, for one line of the file. -/
def load_line (s : State) (line : Str) : State :=
  if line = [] then s
  else
    let g1 := getline (some line) [] ','
    if g1.1 = false then s
    else
      match stoi g1.2.1 with
      | none => s
      | some id =>
        let g2 := getline g1.2.2 g1.2.1 ','
        let name := if g2.1 then g2.2.1 else []
        let g3 := getline g2.2.2 name ','
        let tq := if g3.1 then g3.2.1 else ['0']
        let qty := (stoi tq).getD 0
        let g4 := getline g3.2.2 tq ','
        let tp := if g4.1 then g4.2.1 else ['0']
        let price := (stod tp).getD Double.zero
        { s with
          items := s.items ++ [{ id := id, name := name, qty := qty, price := price }]
          next_id := if s.next_id ≤ id then wrap32 (id + 1) else s.next_id }

/-- Lines 35-59: `while (std::getline(in, line))`, at most `fuel` iterations. -/
def load_loop : Nat → IStream → Str → State → State
  | 0, _, _, s => s
  | fuel + 1, is, line, s =>
    let g := getline is line '\n'
    if g.1 then load_loop fuel g.2.2 g.2.1 (load_line s g.2.1) else s

/-- Lines 30-61. A file that cannot be opened leaves the globals as they are. Every
iteration but the last consumes a character, so `length + 1` iterations suffice. -/
def load_db (s : State) : State :=
  match s.file with
  | none => s
  | some content => load_loop (content.length + 1) (some content) [] { s with items := [] }

/-- Line 66: one record as written to the file. -/
def save_line (it : Item) : Str :=
  showInt it.id ++ ',' :: it.name ++ ',' :: showInt it.qty ++ ',' :: showDouble it.price ++ ['\n']

/-- Lines 63-69: the file is truncated and every record written in order. -/
def save_db (s : State) : State :=
  { s with file := some (s.items.foldl (fun out it => out ++ save_line it) []) }

/-! ## Commands -/

/-- Lines 79-82: one row of the table printed by `list`. -/
def list_row (it : Item) : Str :=
  showInt it.id ++ '\t' :: it.name ++ '\t' ::
    (if it.name.length < 8 then ['\t'] else []) ++
    showInt it.qty ++ '\t' :: showDouble it.price ++ ['\n']

/-- Lines 71-84. -/
def list_items (s : State) : State :=
  if s.items = [] then { s with cout := s.cout ++ "No items in inventory.\n".toList }
  else
    let head := s.cout ++ "ID\tName\t\tQty\tPrice\n".toList ++
      "----------------------------------------\n".toList
    { s with cout := s.items.foldl (fun out it => out ++ list_row it) head }

/-- A loop `while (!valid(v)) { std::cout << msg; std::getline(std::cin, v); }` run for
at most `fuel` tests of its condition: the accepted text, `std::cin` and `std::cout`
when it leaves, `none` when it does not leave. -/
def prompt_loop (valid : Str → Bool) (msg : Str) : Nat → IStream → Str → Str → Option (Str × IStream × Str)
  | 0, _, _, _ => none
  | fuel + 1, cin, v, cout =>
    if valid v then some (v, cin, cout)
    else
      let g := getline cin v '\n'
      prompt_loop valid msg fuel g.2.2 g.2.1 (cout ++ msg)

/-- Enough iterations for a prompt loop on `cin`: each one consumes a character or
finds the stream at its end, after which the tested text no longer changes. -/
def loop_fuel (cin : IStream) : Nat := (cin.getD []).length + 2

/-- Lines 86-115. -/
def add_item (s : State) : Outcome :=
  let id := s.next_id
  let next := wrap32 (s.next_id + 1)
  let g1 := getline s.cin [] '\n'
  match prompt_loop (fun n => decide (n ≠ [])) "Name cannot be empty. Enter name: ".toList
      (loop_fuel g1.2.2) g1.2.2 g1.2.1 (s.cout ++ "Enter name: ".toList) with
  | none => Outcome.hang
  | some (name, cin1, out1) =>
    let g2 := getline cin1 [] '\n'
    match prompt_loop is_number "Invalid number. Enter quantity: ".toList
        (loop_fuel g2.2.2) g2.2.2 g2.2.1 (out1 ++ "Enter quantity: ".toList) with
    | none => Outcome.hang
    | some (tq, cin2, out2) =>
      match stoi tq with
      | none => Outcome.crash
      | some qty =>
        let g3 := getline cin2 tq '\n'
        match prompt_loop is_number "Invalid number. Enter price: ".toList
            (loop_fuel g3.2.2) g3.2.2 g3.2.1 (out2 ++ "Enter price: ".toList) with
        | none => Outcome.hang
        | some (tp, cin3, out3) =>
          match stod tp with
          | none => Outcome.crash
          | some price =>
            Outcome.ok
              { items := s.items ++ [{ id := id, name := name, qty := qty, price := price }]
                next_id := next
                cin := cin3
                cout := out3 ++ "Added item id ".toList ++ showInt id ++ ".\n".toList
                file := s.file }

/-- Lines 117-122: the first record with this id, as the pointer the source
returns: its position in the vector and the record there; `none` for `nullptr`. -/
def find_item_by_id : List Item → Int → Option (Nat × Item)
  | [], _ => none
  | it :: rest, id =>
    if it.id = id then some (0, it)
    else (find_item_by_id rest id).map (fun r => (r.1 + 1, r.2))

/-- Lines 124-151. The record is changed through the pointer; here the changed
record is written back at its position once the three prompts are done. -/
def update_item (s : State) : Outcome :=
  let g0 := getline s.cin [] '\n'
  let out0 := s.cout ++ "Enter item id to update: ".toList
  if is_number g0.2.1 = false then
    Outcome.ok { s with cin := g0.2.2, cout := out0 ++ "Invalid id.\n".toList }
  else
    match stoi g0.2.1 with
    | none => Outcome.crash
    | some id =>
      match find_item_by_id s.items id with
      | none => Outcome.ok { s with cin := g0.2.2, cout := out0 ++ "Item not found.\n".toList }
      | some (i, it) =>
        let out1 := out0 ++ "Current name: ".toList ++ it.name ++
          "\nNew name (leave blank to keep): ".toList
        let g1 := getline g0.2.2 [] '\n'
        let name := if g1.2.1 ≠ [] then g1.2.1 else it.name
        let out2 := out1 ++ "Current qty: ".toList ++ showInt it.qty ++
          "\nNew qty (leave blank to keep): ".toList
        let g2 := getline g1.2.2 g1.2.1 '\n'
        let rq : Option (Int × Str) :=
          if g2.2.1 ≠ [] then
            if is_number g2.2.1 = false then some (it.qty, out2 ++ "Invalid qty; update skipped.\n".toList)
            else (stoi g2.2.1).map (fun q => (q, out2))
          else some (it.qty, out2)
        match rq with
        | none => Outcome.crash
        | some (qty, out3) =>
          let out4 := out3 ++ "Current price: ".toList ++ showDouble it.price ++
            "\nNew price (leave blank to keep): ".toList
          let g3 := getline g2.2.2 g2.2.1 '\n'
          let rp : Option (Double × Str) :=
            if g3.2.1 ≠ [] then
              if is_number g3.2.1 = false then
                some (it.price, out4 ++ "Invalid price; update skipped.\n".toList)
              else (stod g3.2.1).map (fun p => (p, out4))
            else some (it.price, out4)
          match rp with
          | none => Outcome.crash
          | some (price, out5) =>
            Outcome.ok
              { s with
                items := s.items.set i { id := it.id, name := name, qty := qty, price := price }
                cin := g3.2.2
                cout := out5 ++ "Item updated.\n".toList }

/-- Lines 153-166. `std::remove_if` moves the records to keep to the front, in
order, and returns where they end; that is `items.end()` exactly when none was
dropped, and then the vector is as before. -/
def remove_item (s : State) : Outcome :=
  let g := getline s.cin [] '\n'
  let out := s.cout ++ "Enter item id to remove: ".toList
  if is_number g.2.1 = false then
    Outcome.ok { s with cin := g.2.2, cout := out ++ "Invalid id.\n".toList }
  else
    match stoi g.2.1 with
    | none => Outcome.crash
    | some id =>
      let kept := s.items.filter (fun x => decide (x.id ≠ id))
      if kept.length ≠ s.items.length then
        Outcome.ok { s with items := kept, cin := g.2.2, cout := out ++ "Item removed.\n".toList }
      else
        Outcome.ok { s with cin := g.2.2, cout := out ++ "Item not found.\n".toList }

/-- Result of `name.find(term) != std::string::npos`: `term` occurs in `name` as a
contiguous block. -/
def contains (name term : Str) : Bool := name.tails.any (fun t => term.isPrefixOf t)

/-- Line 180: one row of the table printed by `search`. -/
def search_row (it : Item) : Str :=
  showInt it.id ++ '\t' :: it.name ++ '\t' :: showInt it.qty ++ '\t' ::
    showDouble it.price ++ ['\n']

/-- Lines 173-182: the scan of `search`, carrying `found` and `std::cout`. -/
def search_scan (term : Str) (acc : Bool × Str) (it : Item) : Bool × Str :=
  if contains it.name term then
    (true,
      (if acc.1 then acc.2
        else acc.2 ++ "ID\tName\tQty\tPrice\n".toList ++
          "--------------------------------\n".toList) ++ search_row it)
  else acc

/-- Lines 168-184. -/
def search_items (s : State) : State :=
  let g := getline s.cin [] '\n'
  let out := s.cout ++ "Enter search term (name substring): ".toList
  if g.2.1 = [] then { s with cin := g.2.2, cout := out ++ "Empty search.\n".toList }
  else
    let r := s.items.foldl (search_scan g.2.1) (false, out)
    { s with cin := g.2.2, cout := if r.1 then r.2 else r.2 ++ "No matches.\n".toList }

/-- Lines 186-196. -/
def print_help (s : State) : State :=
  { s with cout := s.cout ++ "Commands:\n".toList ++
      "  list    - show all items\n".toList ++
      "  add     - add a new item\n".toList ++
      "  update  - update an existing item by id\n".toList ++
      "  remove  - remove item by id\n".toList ++
      "  search  - search items by name\n".toList ++
      "  save    - save inventory to file\n".toList ++
      "  help    - show this help\n".toList ++
      "  quit    - save & exit\n".toList }

/-! ## The command loop -/

/-- How one iteration of `while (true)` in `main` ends. -/
inductive Step
  | next (s : State)
  | done (s : State)
  | crash
  | hang
  deriving DecidableEq, Repr

/-- A command function that returned lets the loop go on. -/
def Step.ofOutcome : Outcome → Step
  | Outcome.ok s => Step.next s
  | Outcome.crash => Step.crash
  | Outcome.hang => Step.hang

/-- Lines 203-214: one iteration of the loop. -/
def main_step (s : State) : Step :=
  let g := getline s.cin [] '\n'
  let s1 : State := { s with cin := g.2.2, cout := s.cout ++ "> ".toList }
  if g.1 = false then Step.done s1
  else
    let cmd := g.2.1
    if cmd = "list".toList then Step.next (list_items s1)
    else if cmd = "add".toList then Step.ofOutcome (add_item s1)
    else if cmd = "update".toList then Step.ofOutcome (update_item s1)
    else if cmd = "remove".toList then Step.ofOutcome (remove_item s1)
    else if cmd = "search".toList then Step.next (search_items s1)
    else if cmd = "save".toList then
      Step.next { save_db s1 with cout := s1.cout ++ "Saved.\n".toList }
    else if cmd = "help".toList then Step.next (print_help s1)
    else if cmd = "quit".toList then
      Step.done { save_db s1 with cout := s1.cout ++ "Goodbye.\n".toList }
    else if cmd = [] then Step.next s1
    else Step.next { s1 with cout := s1.cout ++ "Unknown command. Type 'help' for commands.\n".toList }

/-- Lines 202-215: the loop, for at most `fuel` iterations; `none` when they do not
suffice. -/
def main_loop : Nat → State → Option Step
  | 0, _ => none
  | fuel + 1, s =>
    match main_step s with
    | Step.next s1 => main_loop fuel s1
    | r => some r

/-- The state in which `main` enters its loop: the file loaded, the banner printed. -/
def main_start (cin : IStream) (file : Option Str) : State :=
  { load_db (State.init cin file) with
    cout := (load_db (State.init cin file)).cout ++
      "Inventory Manager\nType 'help' for commands.\n".toList }

/-- Lines 198-217. Every iteration but the last consumes a character of the
input, so `loop_fuel cin` iterations suffice. -/
def main (cin : IStream) (file : Option Str) : Option Step :=
  main_loop (loop_fuel cin) (main_start cin file)

/-! ## Runs of the loop -/

/-- The three commands that change the collection. -/
inductive Cmd
  | add
  | update
  | remove
  deriving DecidableEq, Repr

/-- The function a command calls. -/
def exec : Cmd → State → Outcome
  | Cmd.add => add_item
  | Cmd.update => update_item
  | Cmd.remove => remove_item

/-- The state after `n` more iterations of the loop, each of which came back to the
prompt; `none` when one of them ended the loop or the process. -/
def iterate_loop : Nat → State → Option State
  | 0, s => some s
  | n + 1, s =>
    match main_step s with
    | Step.next s1 => iterate_loop n s1
    | _ => none

/-- The ids given out by the `add` commands among the next `n` iterations of the
loop, in order: each is the id of the record the command appended, which it reports
as `Added item id`. -/
def assigned_ids : Nat → State → List Int
  | 0, _ => []
  | n + 1, s =>
    match main_step s with
    | Step.next s1 =>
      (if (getline s.cin [] '\n').2.1 = "add".toList then [s.next_id] else []) ++
        assigned_ids n s1
    | _ => []

/-! ## Notions the specification uses -/

/-- A text without its leading and trailing white space. -/
def trim (s : Str) : Str := ((s.dropWhile isspace).reverse.dropWhile isspace).reverse

/-- The lines of a text: the blocks that line breaks end, and the block after the
last line break when it is not empty. -/
def lines : Str → List Str
  | [] => []
  | c :: cs =>
    if c = '\n' then [] :: lines cs
    else
      match lines cs with
      | [] => [[c]]
      | l :: ls => (c :: l) :: ls

/-- The first field of a line: the text before its first comma. -/
def idField (line : Str) : Str := line.takeWhile (fun c => c ≠ ',')

/-- The ids of the records the read loop makes of a list of lines: one for each
non-empty line whose first field `std::stoi` converts. -/
def loaded_ids (ls : List Str) : List Int :=
  ls.filterMap (fun l => if l = [] then none else stoi (idField l))

/-- The invariant of the counter: it is a valid `int` above every id in the
collection. -/
def CounterInv (s : State) : Prop :=
  (∀ i ∈ s.items.map Item.id, i < s.next_id) ∧ INT_MIN ≤ s.next_id

/-- A text that is an integer numeral and nothing else: an optional sign and one or
more decimal digits. -/
def isIntegerText (t : Str) : Bool :=
  decide ((scanSign t).2 ≠ []) && (scanSign t).2.all isdigit

/-- A record that can be stored: id and quantity are values of `int`. -/
def Item.isInt (it : Item) : Prop :=
  INT_MIN ≤ it.id ∧ it.id ≤ INT_MAX ∧ INT_MIN ≤ it.qty ∧ it.qty ≤ INT_MAX

/-- The text of a record in the file, without its line break. -/
def record_text (it : Item) : Str :=
  showInt it.id ++ ',' :: (it.name ++ ',' :: (showInt it.qty ++ ',' :: showDouble it.price))

instance (it : Item) : Decidable it.isInt :=
  inferInstanceAs (Decidable (INT_MIN ≤ it.id ∧ it.id ≤ INT_MAX ∧ INT_MIN ≤ it.qty ∧ it.qty ≤ INT_MAX))

/-- An optional sign. -/
def IsSign (sg : Str) : Prop := sg = [] ∨ sg = ['+'] ∨ sg = ['-']

/-- An optional exponent part: a marker, an optional sign and one or more decimal
digits. -/
def IsExp (isMark : Char → Bool) (ex : Str) : Prop :=
  ex = [] ∨
    ∃ m sg ds, ex = m :: (sg ++ ds) ∧ isMark m = true ∧ IsSign sg ∧ ds ≠ [] ∧
      ∀ c ∈ ds, isdigit c = true

/-- A mantissa: digits, or digits with one radix point among them; at least one
digit. -/
def IsMantissa (isd : Char → Bool) (m : Str) : Prop :=
  ∃ ip fp, (∀ c ∈ ip, isd c = true) ∧ (∀ c ∈ fp, isd c = true) ∧
    ((m = ip ∧ fp = [] ∧ ip ≠ []) ∨ (m = ip ++ '.' :: fp ∧ (ip ≠ [] ∨ fp ≠ [])))

/-- A decimal floating constant: decimal mantissa, optional exponent `e` or `E`. -/
def IsDecFloat (b : Str) : Prop :=
  ∃ m ex, b = m ++ ex ∧ IsMantissa isdigit m ∧ IsExp (fun c => c = 'e' || c = 'E') ex

/-- A hexadecimal floating constant: `0x` or `0X`, hexadecimal mantissa, optional
binary exponent `p` or `P`. -/
def IsHexFloat (b : Str) : Prop :=
  ∃ x m ex, b = '0' :: x :: (m ++ ex) ∧ (x = 'x' ∨ x = 'X') ∧ IsMantissa isxdigit m ∧
    IsExp (fun c => c = 'p' || c = 'P') ex

/-- An infinity or a NaN, in any letter case: `inf`, `infinity`, `nan`, or `nan`
followed by a bracketed sequence of digits, letters and underscores. -/
def IsInfNan (b : Str) : Prop :=
  b.map tolower = ['i', 'n', 'f'] ∨ b.map tolower = ['i', 'n', 'f', 'i', 'n', 'i', 't', 'y'] ∨
    b.map tolower = ['n', 'a', 'n'] ∨
    ∃ w pl, b = w ++ '(' :: (pl ++ [')']) ∧ w.map tolower = ['n', 'a', 'n'] ∧
      ∀ c ∈ pl, isnchar c = true

/-- A text that a floating-point parse consumes entirely: white space, an optional
sign, and an infinity, a NaN, a hexadecimal or a decimal floating constant (the
subject sequence of `strtod` in the C standard), with nothing after it. -/
def FloatText (t : Str) : Prop :=
  ∃ ws sg b, t = ws ++ (sg ++ b) ∧ (∀ c ∈ ws, isspace c = true) ∧ IsSign sg ∧
    (IsInfNan b ∨ IsHexFloat b ∨ IsDecFloat b)

/-- The records a search term selects, in collection order: those whose name holds
the term as a contiguous block of characters. -/
def matching (items : List Item) (term : Str) : List Item :=
  items.filter (fun it => decide (term <:+: it.name))

/-- The comma-separated fields of a line: the texts between its commas, before the
first and after the last one. -/
def splitFields : Str → List Str
  | [] => [[]]
  | c :: cs =>
    if c = ',' then [] :: splitFields cs
    else
      match splitFields cs with
      | [] => [[c]]
      | f :: fs => (c :: f) :: fs

/-- The record made of the fields of a line whose id field gave `id`: the name is
the second field, or empty when it is missing; the quantity is what `std::stoi` makes
of the third field, or 0 when the field is missing or rejected; the price is what
`std::stod` makes of the fourth field, or 0.0 when the field is missing or rejected. -/
def record_of_fields (id : Int) (F : List Str) : Item :=
  { id := id
    name := (F.get? 1).getD []
    qty := ((F.get? 2).bind stoi).getD 0
    price := ((F.get? 3).bind stod).getD Double.zero }

/-- The record `load_db` makes of one line of the file, if it makes one. -/
def parse_line (l : Str) : Option Item :=
  if l = [] then none
  else (stoi (idField l)).map (fun id => record_of_fields id (splitFields l))

/-- The fields still to be read from a string stream. -/
def streamFields : IStream → List Str
  | none => []
  | some buf => splitFields buf

/-- The record read back from the text `save_db` writes for a record. -/
def reload (it : Item) : Item := record_of_fields it.id (splitFields (record_text it))

/-- What the types of the source guarantee of a state, and what reading by lines
guarantees of its names: ids, quantities and the counter are values of `int`, and no
name holds a line break. -/
def WellFormed (s : State) : Prop :=
  (∀ it ∈ s.items, it.isInt ∧ ∀ c ∈ it.name, c ≠ '\n') ∧
    INT_MIN ≤ s.next_id ∧ s.next_id ≤ INT_MAX

/-- The eight command words. -/
def commands : List Str :=
  ["list".toList, "add".toList, "update".toList, "remove".toList, "search".toList,
    "save".toList, "help".toList, "quit".toList]

/-! ## Basic facts -/

theorem wrap32_succ (x : Int) (h1 : INT_MIN ≤ x) (h2 : x < INT_MAX) : wrap32 (x + 1) = x + 1 := by
  unfold wrap32
  unfold INT_MIN at h1
  unfold INT_MAX at h2
  omega

theorem add_item_ok {s s1 : State} (h : add_item s = Outcome.ok s1) :
    ∃ name qty price,
      s1.items = s.items ++ [{ id := s.next_id, name := name, qty := qty, price := price }] ∧
      s1.next_id = wrap32 (s.next_id + 1) ∧ s1.file = s.file := by
  unfold add_item at h
  simp only at h
  split at h
  · exact absurd h (by simp)
  · split at h
    · exact absurd h (by simp)
    · split at h
      · exact absurd h (by simp)
      · split at h
        · exact absurd h (by simp)
        · split at h
          · exact absurd h (by simp)
          · injection h with h
            subst h
            exact ⟨_, _, _, rfl, rfl, rfl⟩

theorem remove_item_ok {s s1 : State} (h : remove_item s = Outcome.ok s1) :
    (∃ p : Item → Bool, s1.items = s.items.filter p) ∧
      s1.next_id = s.next_id ∧ s1.file = s.file := by
  unfold remove_item at h
  simp only at h
  split at h
  · injection h with h
    subst h
    exact ⟨⟨fun _ => true, by simp⟩, rfl, rfl⟩
  · split at h
    · exact absurd h (by simp)
    · split at h
      · injection h with h
        subst h
        exact ⟨⟨_, rfl⟩, rfl, rfl⟩
      · injection h with h
        subst h
        exact ⟨⟨fun _ => true, by simp⟩, rfl, rfl⟩

theorem map_id_set (l : List Item) (i : Nat) (it jt : Item) (h : l.get? i = some it)
    (hj : jt.id = it.id) : (l.set i jt).map Item.id = l.map Item.id := by
  induction l generalizing i with
  | nil => simp
  | cons a l ih =>
    cases i with
    | zero =>
      simp only [List.get?_cons_zero, Option.some.injEq] at h
      subst h
      simp [hj]
    | succ i =>
      simp only [List.get?_cons_succ] at h
      simp [List.set, ih i h]

theorem find_item_by_id_some {items : List Item} {id : Int} {i : Nat} {it : Item}
    (h : find_item_by_id items id = some (i, it)) : items.get? i = some it ∧ it.id = id := by
  induction items generalizing i with
  | nil => simp [find_item_by_id] at h
  | cons a rest ih =>
    unfold find_item_by_id at h
    split at h
    · rename_i ha
      injection h with h
      injection h with h1 h2
      subst h1 h2
      exact ⟨rfl, ha⟩
    · cases hr : find_item_by_id rest id with
      | none => rw [hr] at h; simp at h
      | some r =>
        rw [hr] at h
        simp only [Option.map_some', Option.some.injEq, Prod.mk.injEq] at h
        obtain ⟨h1, h2⟩ := h
        subst h1 h2
        obtain ⟨i1, i2⟩ := ih (i := r.1) (by rw [hr])
        exact ⟨by simpa using i1, i2⟩

theorem update_item_ok {s s1 : State} (h : update_item s = Outcome.ok s1) :
    s1.items.map Item.id = s.items.map Item.id ∧
      s1.next_id = s.next_id ∧ s1.file = s.file := by
  unfold update_item at h
  simp only at h
  split at h
  · injection h with h
    subst h
    exact ⟨rfl, rfl, rfl⟩
  · split at h
    · exact absurd h (by simp)
    · split at h
      · injection h with h
        subst h
        exact ⟨rfl, rfl, rfl⟩
      · rename_i i it hfind
        split at h
        · exact absurd h (by simp)
        · split at h
          · exact absurd h (by simp)
          · injection h with h
            subst h
            exact ⟨map_id_set s.items _ it _ (find_item_by_id_some hfind).1 rfl, rfl, rfl⟩

theorem exec_next_id {c : Cmd} {s s1 : State} (h : exec c s = Outcome.ok s1) :
    s1.next_id = if c = Cmd.add then wrap32 (s.next_id + 1) else s.next_id := by
  cases c with
  | add =>
    obtain ⟨_, _, _, _, h2, _⟩ := add_item_ok h
    simpa using h2
  | update => simpa using (update_item_ok h).2.1
  | remove => simpa using (remove_item_ok h).2.1

/-! ## Facts about `getline` and the read loop of `load_db` -/

theorem lines_append_newline (tok rest : Str) (h : ∀ c ∈ tok, c ≠ '\n') :
    lines (tok ++ '\n' :: rest) = tok :: lines rest := by
  induction tok with
  | nil => simp [lines]
  | cons c tok ih =>
    have hc : c ≠ '\n' := h c (List.mem_cons_self _ _)
    have ih1 := ih (fun d hd => h d (List.mem_cons_of_mem _ hd))
    simp [lines, hc, ih1]

theorem lines_single (tok : Str) (hne : tok ≠ []) (h : ∀ c ∈ tok, c ≠ '\n') :
    lines tok = [tok] := by
  induction tok with
  | nil => exact absurd rfl hne
  | cons c tok ih =>
    have hc : c ≠ '\n' := h c (List.mem_cons_self _ _)
    cases tok with
    | nil => simp [lines, hc]
    | cons d tok =>
      have ih1 := ih (by simp) (fun e he => h e (List.mem_cons_of_mem _ he))
      rw [lines, if_neg hc, ih1]

theorem span_delim (tok rest : Str) (d : Char) (h : ∀ c ∈ tok, c ≠ d) :
    (tok ++ d :: rest).takeWhile (fun c => decide (c ≠ d)) = tok ∧
      (tok ++ d :: rest).dropWhile (fun c => decide (c ≠ d)) = d :: rest := by
  induction tok with
  | nil =>
    have hp : decide (d ≠ d) = false := decide_eq_false (by simp)
    simp only [List.nil_append, List.takeWhile_cons, List.dropWhile_cons, hp]
    exact ⟨rfl, rfl⟩
  | cons c tok ih =>
    have hp : decide (c ≠ d) = true := decide_eq_true (h c (List.mem_cons_self _ _))
    obtain ⟨ih1, ih2⟩ := ih (fun e he => h e (List.mem_cons_of_mem _ he))
    simp only [List.cons_append, List.takeWhile_cons, List.dropWhile_cons, hp, ih1, ih2]
    exact ⟨rfl, rfl⟩

theorem span_no_delim (buf : Str) (d : Char) (h : ∀ c ∈ buf, c ≠ d) :
    buf.takeWhile (fun c => decide (c ≠ d)) = buf ∧
      buf.dropWhile (fun c => decide (c ≠ d)) = [] := by
  induction buf with
  | nil => exact ⟨rfl, rfl⟩
  | cons c buf ih =>
    have hp : decide (c ≠ d) = true := decide_eq_true (h c (List.mem_cons_self _ _))
    obtain ⟨ih1, ih2⟩ := ih (fun e he => h e (List.mem_cons_of_mem _ he))
    simp only [List.takeWhile_cons, List.dropWhile_cons, hp, ih1, ih2]
    exact ⟨rfl, rfl⟩

/-- Every text either lacks the delimiter or splits at its first occurrence. -/
theorem split_first (buf : Str) (d : Char) :
    (∀ c ∈ buf, c ≠ d) ∨ ∃ tok rest, buf = tok ++ d :: rest ∧ ∀ c ∈ tok, c ≠ d := by
  induction buf with
  | nil => exact Or.inl (fun c hc => absurd hc (List.not_mem_nil c))
  | cons a buf ih =>
    by_cases ha : a = d
    · exact Or.inr ⟨[], buf, by simp [ha], fun c hc => absurd hc (List.not_mem_nil c)⟩
    · rcases ih with h | ⟨tok, rest, h1, h2⟩
      · refine Or.inl (fun c hc => ?_)
        rcases List.mem_cons.mp hc with rfl | hc
        · exact ha
        · exact h c hc
      · refine Or.inr ⟨a :: tok, rest, by simp [h1], fun c hc => ?_⟩
        rcases List.mem_cons.mp hc with rfl | hc
        · exact ha
        · exact h2 c hc

theorem getline_delim (tok rest str : Str) (d : Char) (h : ∀ c ∈ tok, c ≠ d) :
    getline (some (tok ++ d :: rest)) str d = (true, tok, some rest) := by
  obtain ⟨h1, h2⟩ := span_delim tok rest d h
  unfold getline
  simp only [h1, h2]

theorem getline_last (buf str : Str) (d : Char) (hne : buf ≠ []) (h : ∀ c ∈ buf, c ≠ d) :
    getline (some buf) str d = (true, buf, none) := by
  obtain ⟨_, h2⟩ := span_no_delim buf d h
  unfold getline
  simp only [h2, if_neg hne]

theorem getline_empty (str : Str) (d : Char) : getline (some []) str d = (false, [], none) := rfl

theorem getline_closed (str : Str) (d : Char) : getline none str d = (false, str, none) := rfl

/-- On a non-empty buffer `getline` succeeds and yields the text before the first
delimiter. -/
theorem getline_nonempty (buf str : Str) (d : Char) (h : buf ≠ []) :
    (getline (some buf) str d).1 = true ∧
      (getline (some buf) str d).2.1 = buf.takeWhile (fun c => decide (c ≠ d)) := by
  rcases split_first buf d with hno | ⟨tok, rest, rfl, htok⟩
  · rw [getline_last buf str d h hno, (span_no_delim buf d hno).1]
    exact ⟨rfl, rfl⟩
  · rw [getline_delim tok rest str d htok, (span_delim tok rest d htok).1]
    exact ⟨rfl, rfl⟩

theorem load_loop_lines (fuel : Nat) :
    ∀ (buf line : Str) (s : State), buf.length < fuel →
      load_loop fuel (some buf) line s = (lines buf).foldl load_line s := by
  induction fuel with
  | zero => intro buf line s h; exact absurd h (Nat.not_lt_zero _)
  | succ fuel ih =>
    intro buf line s hlen
    rcases split_first buf '\n' with hno | ⟨tok, rest, rfl, htok⟩
    · by_cases hb : buf = []
      · subst hb
        simp [load_loop, getline_empty, lines]
      · have hf : 0 < fuel := by
          cases buf with
          | nil => exact absurd rfl hb
          | cons a t => simp at hlen; omega
        obtain ⟨f, rfl⟩ : ∃ f, fuel = f + 1 := ⟨fuel - 1, by omega⟩
        simp [load_loop, getline_last buf line '\n' hb hno, getline_closed,
          lines_single buf hb hno]
    · have hlen2 : rest.length < fuel := by
        simp at hlen
        omega
      simp [load_loop, getline_delim tok rest line '\n' htok, lines_append_newline tok rest htok,
        ih rest _ _ hlen2]

theorem stoi_range {t : Str} {v : Int} (h : stoi t = some v) : INT_MIN ≤ v ∧ v ≤ INT_MAX := by
  unfold stoi at h
  simp only at h
  split at h
  · exact absurd h (by simp)
  · rw [Option.ite_none_right_eq_some] at h
    obtain ⟨hr, hv⟩ := h
    injection hv with hv
    rw [← hv]
    exact hr

theorem load_line_empty (s : State) : load_line s [] = s := by
  simp [load_line]

theorem load_line_skip (s : State) (line : Str) (h : stoi (idField line) = none) :
    load_line s line = s := by
  by_cases hl : line = []
  · subst hl; exact load_line_empty s
  · obtain ⟨h1, h2⟩ := getline_nonempty line [] ',' hl
    unfold idField at h
    unfold load_line
    simp only [if_neg hl, h1, h2, h]
    simp

theorem load_line_keep (s : State) (line : Str) (id : Int) (hl : line ≠ [])
    (h : stoi (idField line) = some id) :
    ∃ name qty price,
      load_line s line =
        { s with
          items := s.items ++ [{ id := id, name := name, qty := qty, price := price }]
          next_id := if s.next_id ≤ id then wrap32 (id + 1) else s.next_id } := by
  obtain ⟨h1, h2⟩ := getline_nonempty line [] ',' hl
  unfold idField at h
  unfold load_line
  simp only [if_neg hl, h1, h2, h]
  exact ⟨_, _, _, rfl⟩

theorem load_fold (ls : List Str) :
    ∀ s : State,
      ((ls.foldl load_line s).items.map Item.id = s.items.map Item.id ++ loaded_ids ls) ∧
        (ls.foldl load_line s).cin = s.cin ∧ (ls.foldl load_line s).cout = s.cout ∧
        (ls.foldl load_line s).file = s.file ∧
        ((∀ i ∈ loaded_ids ls, i < INT_MAX) →
          (ls.foldl load_line s).next_id =
            (loaded_ids ls).foldl (fun n i => max n (i + 1)) s.next_id) := by
  induction ls with
  | nil => intro s; simp [loaded_ids]
  | cons l ls ih =>
    intro s
    by_cases hl : l = []
    · subst hl
      have : loaded_ids ([] :: ls) = loaded_ids ls := by simp [loaded_ids]
      rw [this, List.foldl_cons, load_line_empty]
      exact ih s
    · cases hs : stoi (idField l) with
      | none =>
        have : loaded_ids (l :: ls) = loaded_ids ls := by simp [loaded_ids, hl, hs]
        rw [this, List.foldl_cons, load_line_skip s l hs]
        exact ih s
      | some id =>
        have hids : loaded_ids (l :: ls) = id :: loaded_ids ls := by simp [loaded_ids, hl, hs]
        obtain ⟨name, qty, price, hk⟩ := load_line_keep s l id hl hs
        obtain ⟨i1, i2, i3, i4, i5⟩ := ih (load_line s l)
        rw [hids, List.foldl_cons]
        refine ⟨?_, ?_, ?_, ?_, ?_⟩
        · rw [i1, hk]; simp
        · rw [i2, hk]
        · rw [i3, hk]
        · rw [i4, hk]
        · intro hmax
          have hid : id < INT_MAX := hmax id (List.mem_cons_self _ _)
          rw [i5 (fun i hi => hmax i (List.mem_cons_of_mem _ hi)), hk, List.foldl_cons]
          congr 1
          simp only
          rw [wrap32_succ id (stoi_range hs).1 hid]
          by_cases hle : s.next_id ≤ id
          · rw [if_pos hle, max_eq_right (by omega)]
          · rw [if_neg hle, max_eq_left (by omega)]

/-- The outcome of `load_db` when the file exists, in terms of its lines. -/
theorem load_db_file (s : State) (content : Str) (h : s.file = some content) :
    load_db s = (lines content).foldl load_line { s with items := [] } := by
  unfold load_db
  rw [h]
  exact load_loop_lines _ _ _ _ (Nat.lt_succ_self _)

theorem load_db_absent (s : State) (h : s.file = none) : load_db s = s := by
  unfold load_db
  rw [h]

/-- Behaviour of the running maximum that `load_db` keeps in `next_id`. -/
theorem foldl_max_spec (ids : List Int) :
    ∀ n : Int,
      n ≤ ids.foldl (fun n i => max n (i + 1)) n ∧
        (∀ i ∈ ids, i < ids.foldl (fun n i => max n (i + 1)) n) ∧
        (ids.foldl (fun n i => max n (i + 1)) n = n ∨
          ∃ i ∈ ids, ids.foldl (fun n i => max n (i + 1)) n = i + 1) := by
  induction ids with
  | nil => intro n; simp
  | cons a ids ih =>
    intro n
    obtain ⟨h1, h2, h3⟩ := ih (max n (a + 1))
    simp only [List.foldl_cons, List.mem_cons, forall_eq_or_imp, exists_eq_or_imp]
    refine ⟨le_trans (le_max_left _ _) h1, ⟨?_, h2⟩, ?_⟩
    · have := le_trans (le_max_right n (a + 1)) h1
      omega
    · rcases h3 with h3 | ⟨i, hi, h3⟩
      · rcases le_total n (a + 1) with hle | hle
        · rw [max_eq_right hle] at h3 ⊢
          exact Or.inr (Or.inl h3)
        · rw [max_eq_left hle] at h3 ⊢
          exact Or.inl h3
      · exact Or.inr (Or.inr ⟨i, hi, h3⟩)

/-- After `load_db` at program start, when no loaded id is the largest `int`: the
counter is at least 1, above every loaded id, and is 1 or the successor of one. -/
theorem load_db_next_id (cin : IStream) (file : Option Str)
    (hmax : ∀ it ∈ (load_db (State.init cin file)).items, it.id < INT_MAX) :
    1 ≤ (load_db (State.init cin file)).next_id ∧
      (∀ i ∈ (load_db (State.init cin file)).items.map Item.id,
        i < (load_db (State.init cin file)).next_id) ∧
      ((load_db (State.init cin file)).next_id = 1 ∨
        ∃ i ∈ (load_db (State.init cin file)).items.map Item.id,
          (load_db (State.init cin file)).next_id = i + 1) := by
  cases file with
  | none =>
    rw [load_db_absent _ rfl]
    simp [State.init]
  | some content =>
    rw [load_db_file _ content rfl] at hmax ⊢
    obtain ⟨h1, _, _, _, h5⟩ := load_fold (lines content) { State.init cin (some content) with items := [] }
    simp only [List.map_nil, List.nil_append] at h1
    have hmax2 : ∀ i ∈ loaded_ids (lines content), i < INT_MAX := by
      intro i hi
      rw [← h1] at hi
      obtain ⟨it, hit, rfl⟩ := List.mem_map.mp hi
      exact hmax it hit
    rw [h1, h5 hmax2]
    exact foldl_max_spec (loaded_ids (lines content)) 1

theorem exec_preserves {c : Cmd} {s s1 : State} (hinv : CounterInv s)
    (hlt : s.next_id < INT_MAX) (h : exec c s = Outcome.ok s1) :
    CounterInv s1 ∧ s.next_id ≤ s1.next_id ∧ s1.next_id ≤ s.next_id + 1 ∧
      ((s.items.map Item.id).Nodup → (s1.items.map Item.id).Nodup) := by
  obtain ⟨hbelow, hlo⟩ := hinv
  cases c with
  | add =>
    obtain ⟨name, qty, price, hi, hn, _⟩ := add_item_ok h
    rw [wrap32_succ _ hlo hlt] at hn
    refine ⟨⟨?_, by omega⟩, by omega, by omega, ?_⟩
    · intro i hi2
      rw [hi, List.map_append, List.mem_append] at hi2
      rcases hi2 with hi2 | hi2
      · have := hbelow i hi2
        omega
      · simp only [List.map_cons, List.map_nil, List.mem_singleton] at hi2
        omega
    · intro hnd
      rw [hi, List.map_append, List.nodup_append]
      refine ⟨hnd, by simp, ?_⟩
      intro a ha hb
      simp only [List.map_cons, List.map_nil, List.mem_singleton] at hb
      have := hbelow a ha
      omega
  | update =>
    obtain ⟨hi, hn, _⟩ := update_item_ok h
    refine ⟨⟨?_, by omega⟩, by omega, by omega, fun hnd => by rw [hi]; exact hnd⟩
    intro i hi2
    rw [hi] at hi2
    have := hbelow i hi2
    omega
  | remove =>
    obtain ⟨⟨p, hi⟩, hn, _⟩ := remove_item_ok h
    have hsub : (s1.items.map Item.id).Sublist (s.items.map Item.id) := by
      rw [hi]
      exact List.Sublist.map _ (List.filter_sublist _)
    refine ⟨⟨?_, by omega⟩, by omega, by omega, fun hnd => hnd.sublist hsub⟩
    intro i hi2
    have := hbelow i (hsub.subset hi2)
    omega

/-! ## Facts about the prompt loops -/

/-- On a closed stream a prompt loop whose text is not valid never leaves. -/
theorem prompt_loop_stuck (valid : Str → Bool) (msg v : Str) (hv : valid v = false)
    (fuel : Nat) : ∀ out, prompt_loop valid msg fuel none v out = none := by
  induction fuel with
  | zero => intro out; rfl
  | succ fuel ih =>
    intro out
    unfold prompt_loop
    simp only [hv, getline_closed]
    exact ih _

theorem prompt_loop_closed (valid : Str → Bool) (msg v out : Str) (fuel : Nat)
    (h : prompt_loop valid msg (fuel + 1) none v out = none) :
    ∀ fuel2, prompt_loop valid msg fuel2 none v out = none := by
  intro fuel2
  unfold prompt_loop at h
  by_cases hv : valid v = true
  · rw [if_pos hv] at h
    exact absurd h (by simp)
  · exact prompt_loop_stuck valid msg v (by simpa using hv) fuel2 out

/-- The fuel `loop_fuel` is enough: a prompt loop that has not left after that many
tests of its condition does not leave, however many it is given. -/
theorem prompt_loop_hang (valid : Str → Bool) (msg : Str) (n : Nat) :
    ∀ (buf v out : Str) (fuel : Nat), buf.length = n → buf.length + 2 ≤ fuel →
      prompt_loop valid msg fuel (some buf) v out = none →
      ∀ fuel2, prompt_loop valid msg fuel2 (some buf) v out = none := by
  induction n using Nat.strong_induction_on with
  | _ n ih =>
    intro buf v out fuel hn hf h fuel2
    obtain ⟨f, rfl⟩ : ∃ f, fuel = f + 1 := ⟨fuel - 1, by omega⟩
    cases fuel2 with
    | zero => rfl
    | succ f2 =>
      unfold prompt_loop at h ⊢
      by_cases hv : valid v = true
      · rw [if_pos hv] at h
        exact absurd h (by simp)
      · rw [if_neg hv] at h ⊢
        obtain ⟨g, rfl⟩ : ∃ g, f = g + 1 := ⟨f - 1, by omega⟩
        rcases split_first buf '\n' with hno | ⟨tok, rest, rfl, htok⟩
        · by_cases hb : buf = []
          · subst hb
            rw [getline_empty] at h ⊢
            exact prompt_loop_closed valid msg _ _ g h f2
          · rw [getline_last buf v '\n' hb hno] at h ⊢
            exact prompt_loop_closed valid msg _ _ g h f2
        · rw [getline_delim tok rest v '\n' htok] at h ⊢
          have hlen : rest.length < n := by
            rw [← hn]; simp; omega
          have hf2 : rest.length + 2 ≤ g + 1 := by
            simp at hf
            omega
          exact ih rest.length hlen rest tok _ (g + 1) rfl hf2 h f2

/-! ## Facts about the command loop -/

theorem list_items_frame (s : State) :
    (list_items s).items = s.items ∧ (list_items s).next_id = s.next_id := by
  unfold list_items
  split <;> exact ⟨rfl, rfl⟩

theorem search_items_frame (s : State) :
    (search_items s).items = s.items ∧ (search_items s).next_id = s.next_id := by
  unfold search_items
  simp only
  split <;> exact ⟨rfl, rfl⟩

theorem ofOutcome_next {o : Outcome} {s1 : State} (h : Step.ofOutcome o = Step.next s1) :
    o = Outcome.ok s1 := by
  cases o with
  | ok s => simp only [Step.ofOutcome, Step.next.injEq] at h; rw [h]
  | crash => simp [Step.ofOutcome] at h
  | hang => simp [Step.ofOutcome] at h

/-- An iteration of the loop that comes back to the prompt either leaves the
collection and the counter as they were, the line read not being `add`, or is a
call of `add_item`, `update_item` or `remove_item` on the same collection and
counter, the first exactly when the line read is `add`. -/
theorem main_step_cases {s s1 : State} (h : main_step s = Step.next s1) :
    (s1.items = s.items ∧ s1.next_id = s.next_id ∧
        (getline s.cin [] '\n').2.1 ≠ "add".toList) ∨
      ∃ c s0, exec c s0 = Outcome.ok s1 ∧ s0.items = s.items ∧ s0.next_id = s.next_id ∧
        (c = Cmd.add ↔ (getline s.cin [] '\n').2.1 = "add".toList) := by
  rcases hg : getline s.cin [] '\n' with ⟨ok, line, cin1⟩
  unfold main_step at h
  simp only [hg] at h
  split at h
  · exact absurd h (by simp)
  · split at h
    · rename_i hc
      injection h with h
      subst h
      exact Or.inl ⟨(list_items_frame _).1, (list_items_frame _).2, by
        show line ≠ _
        rw [hc]
        decide⟩
    · split at h
      · rename_i hc
        exact Or.inr ⟨Cmd.add, _, ofOutcome_next h, rfl, rfl, fun _ => hc, fun _ => rfl⟩
      · rename_i hadd
        split at h
        · exact Or.inr ⟨Cmd.update, _, ofOutcome_next h, rfl, rfl,
            fun e => absurd e (by decide), fun e => absurd e hadd⟩
        · split at h
          · exact Or.inr ⟨Cmd.remove, _, ofOutcome_next h, rfl, rfl,
              fun e => absurd e (by decide), fun e => absurd e hadd⟩
          · split at h
            · injection h with h
              subst h
              exact Or.inl ⟨(search_items_frame _).1, (search_items_frame _).2, hadd⟩
            · split at h
              · injection h with h
                subst h
                exact Or.inl ⟨rfl, rfl, hadd⟩
              · split at h
                · injection h with h
                  subst h
                  exact Or.inl ⟨rfl, rfl, hadd⟩
                · split at h
                  · exact absurd h (by simp)
                  · split at h
                    · injection h with h
                      subst h
                      exact Or.inl ⟨rfl, rfl, hadd⟩
                    · injection h with h
                      subst h
                      exact Or.inl ⟨rfl, rfl, hadd⟩

/-- The counter after an iteration of the loop that comes back to the prompt. -/
theorem main_step_next_id {s s1 : State} (h : main_step s = Step.next s1) :
    s1.next_id =
      if (getline s.cin [] '\n').2.1 = "add".toList then wrap32 (s.next_id + 1)
      else s.next_id := by
  rcases main_step_cases h with ⟨_, h2, h3⟩ | ⟨c, s0, hx, _, h2, h3⟩
  · rw [if_neg h3, h2]
  · have hn := exec_next_id hx
    by_cases hc : c = Cmd.add
    · rw [if_pos hc, h2] at hn
      rw [if_pos (h3.mp hc)]
      exact hn
    · rw [if_neg hc, h2] at hn
      rw [if_neg (fun e => hc (h3.mpr e))]
      exact hn

theorem main_step_preserves {s s1 : State} (hinv : CounterInv s) (hlt : s.next_id < INT_MAX)
    (h : main_step s = Step.next s1) :
    CounterInv s1 ∧ ((s.items.map Item.id).Nodup → (s1.items.map Item.id).Nodup) := by
  rcases main_step_cases h with ⟨h1, h2, h3⟩ | ⟨c, s0, hx, h1, h2, h3⟩
  · refine ⟨?_, fun hnd => by rw [h1]; exact hnd⟩
    unfold CounterInv
    rw [h1, h2]
    exact hinv
  · have hinv0 : CounterInv s0 := by
      unfold CounterInv
      rw [h1, h2]
      exact hinv
    obtain ⟨i1, _, _, i4⟩ := exec_preserves hinv0 (by rw [h2]; exact hlt) hx
    exact ⟨i1, fun hnd => i4 (by rw [h1]; exact hnd)⟩

/-- While the counter is below the largest `int`, an iteration raises it by one when
the line read is `add` and leaves it otherwise. -/
theorem main_step_counter {s s1 : State} (hlo : INT_MIN ≤ s.next_id) (hlt : s.next_id < INT_MAX)
    (h : main_step s = Step.next s1) :
    s1.next_id =
      if (getline s.cin [] '\n').2.1 = "add".toList then s.next_id + 1 else s.next_id := by
  rw [main_step_next_id h, wrap32_succ _ hlo hlt]

theorem iterate_loop_preserves (n : Nat) :
    ∀ s s1 : State, CounterInv s → s.next_id + n ≤ INT_MAX → iterate_loop n s = some s1 →
      CounterInv s1 ∧ s.next_id ≤ s1.next_id ∧ s1.next_id ≤ s.next_id + n ∧
        ((s.items.map Item.id).Nodup → (s1.items.map Item.id).Nodup) := by
  induction n with
  | zero =>
    intro s s1 hinv _ h
    simp only [iterate_loop, Option.some.injEq] at h
    subst h
    simp [hinv]
  | succ n ih =>
    intro s s1 hinv hb h
    simp only [Nat.cast_add, Nat.cast_one] at hb ⊢
    unfold iterate_loop at h
    cases hx : main_step s with
    | next s2 =>
      rw [hx] at h
      simp only at h
      obtain ⟨hinv2, hn2⟩ := main_step_preserves hinv (by omega) hx
      have h1 := main_step_counter hinv.2 (by omega) hx
      have hle : s.next_id ≤ s2.next_id ∧ s2.next_id ≤ s.next_id + 1 := by
        rw [h1]; split <;> omega
      obtain ⟨hinv3, h3, h4, hn3⟩ := ih s2 s1 hinv2 (by omega) h
      exact ⟨hinv3, by omega, by omega, fun hnd => hn3 (hn2 hnd)⟩
    | done s2 => rw [hx] at h; exact absurd h (by simp)
    | crash => rw [hx] at h; exact absurd h (by simp)
    | hang => rw [hx] at h; exact absurd h (by simp)

theorem assigned_ids_increasing (n : Nat) :
    ∀ s : State, INT_MIN ≤ s.next_id → s.next_id + n ≤ INT_MAX →
      (assigned_ids n s).Pairwise (fun a b => a < b) ∧ ∀ x ∈ assigned_ids n s, s.next_id ≤ x := by
  induction n with
  | zero => intro s _ _; simp [assigned_ids]
  | succ n ih =>
    intro s hlo hhi
    simp only [Nat.cast_add, Nat.cast_one] at hhi
    unfold assigned_ids
    cases hx : main_step s with
    | next s1 =>
      have hn := main_step_counter hlo (by omega) hx
      simp only
      by_cases hc : (getline s.cin [] '\n').2.1 = "add".toList
      · rw [if_pos hc] at hn ⊢
        obtain ⟨ih1, ih2⟩ := ih s1 (by omega) (by omega)
        simp only [List.singleton_append, List.pairwise_cons, List.mem_cons, forall_eq_or_imp,
          le_refl, true_and]
        refine ⟨⟨fun x hx => ?_, ih1⟩, fun x hx => ?_⟩
        · have := ih2 x hx
          omega
        · have := ih2 x hx
          omega
      · rw [if_neg hc] at hn ⊢
        obtain ⟨ih1, ih2⟩ := ih s1 (by omega) (by omega)
        simp only [List.nil_append]
        exact ⟨ih1, fun x hx => by have := ih2 x hx; omega⟩
    | done s2 => simp
    | crash => simp
    | hang => simp

/-- The state in which the loop starts satisfies the invariant of the counter when
no loaded id is the largest `int`. -/
theorem main_start_inv (cin : IStream) (file : Option Str)
    (hmax : ∀ it ∈ (load_db (State.init cin file)).items, it.id < INT_MAX) :
    CounterInv (main_start cin file) := by
  obtain ⟨h1, h2, _⟩ := load_db_next_id cin file hmax
  refine ⟨h2, ?_⟩
  show INT_MIN ≤ (load_db (State.init cin file)).next_id
  unfold INT_MIN
  omega

/-! ## Facts about printing and reading numbers -/

theorem digit_char : ∀ k, k < 10 → (Char.ofNat (48 + k)).toNat = 48 + k := by decide

theorem ofDigits_append (xs : Str) (c : Char) :
    ofDigits (xs ++ [c]) = ofDigits xs * 10 + digitVal c := by
  simp [ofDigits, List.foldl_append]

theorem showNatAux_acc (fuel : Nat) :
    ∀ n acc, showNatAux fuel n acc = showNatAux fuel n [] ++ acc := by
  induction fuel with
  | zero => intro n acc; simp [showNatAux]
  | succ fuel ih =>
    intro n acc
    unfold showNatAux
    by_cases h : n < 10
    · simp [h]
    · rw [if_neg h, if_neg h, ih (n / 10) (_ :: acc), ih (n / 10) [_]]
      simp

theorem showNatAux_spec (fuel : Nat) :
    ∀ n, n < fuel →
      (∀ c ∈ showNatAux fuel n [], isdigit c = true) ∧ ofDigits (showNatAux fuel n []) = n ∧
        showNatAux fuel n [] ≠ [] := by
  induction fuel with
  | zero => intro n h; exact absurd h (Nat.not_lt_zero _)
  | succ fuel ih =>
    intro n hn
    unfold showNatAux
    by_cases h : n < 10
    · rw [if_pos h]
      have := digit_char n h
      refine ⟨?_, ?_, by simp⟩
      · intro c hc
        simp only [List.mem_singleton] at hc
        subst hc
        simp only [isdigit, this, Bool.and_eq_true, decide_eq_true_eq]
        omega
      · simp only [ofDigits, List.foldl_cons, List.foldl_nil, digitVal, this]
        omega
    · rw [if_neg h, showNatAux_acc]
      have hd := digit_char (n % 10) (Nat.mod_lt _ (by decide))
      obtain ⟨h1, h2, h3⟩ := ih (n / 10) (by omega)
      refine ⟨?_, ?_, by simp⟩
      · intro c hc
        rcases List.mem_append.mp hc with hc | hc
        · exact h1 c hc
        · simp only [List.mem_singleton] at hc
          subst hc
          simp only [isdigit, hd, Bool.and_eq_true, decide_eq_true_eq]
          omega
      · rw [ofDigits_append, h2]
        simp only [digitVal, hd]
        omega

theorem showNat_digits (n : Nat) : ∀ c ∈ showNat n, isdigit c = true :=
  (showNatAux_spec (n + 1) n (Nat.lt_succ_self n)).1

theorem ofDigits_showNat (n : Nat) : ofDigits (showNat n) = n :=
  (showNatAux_spec (n + 1) n (Nat.lt_succ_self n)).2.1

theorem showNat_ne_nil (n : Nat) : showNat n ≠ [] :=
  (showNatAux_spec (n + 1) n (Nat.lt_succ_self n)).2.2

theorem digit_ne (c d : Char) (h : isdigit c = true) (hd : isdigit d = false) : c ≠ d := by
  intro e
  rw [e, hd] at h
  exact Bool.noConfusion h

theorem digit_not_space (c : Char) (h : isdigit c = true) : isspace c = false := by
  simp [isspace, digit_ne c ' ' h (by decide), digit_ne c '\t' h (by decide),
    digit_ne c '\n' h (by decide), digit_ne c '\x0b' h (by decide),
    digit_ne c '\x0c' h (by decide), digit_ne c '\r' h (by decide)]

theorem scanSign_digit (c : Char) (t : Str) (h : isdigit c = true) :
    scanSign (c :: t) = (false, c :: t) := by
  unfold scanSign
  split
  · rename_i heq
    injection heq with h1 _
    exact absurd h1 (digit_ne c '-' h (by decide))
  · rename_i heq
    injection heq with h1 _
    exact absurd h1 (digit_ne c '+' h (by decide))
  · rfl

theorem takeWhile_all {p : Char → Bool} {l : Str} (h : ∀ c ∈ l, p c = true) :
    l.takeWhile p = l := List.takeWhile_eq_self_iff.mpr h

/-- `std::stoi` reads back what `operator<<` prints for an `int`. -/
theorem stoi_showInt (i : Int) (h1 : INT_MIN ≤ i) (h2 : i ≤ INT_MAX) :
    stoi (showInt i) = some i := by
  have hdig := showNat_digits i.natAbs
  have hval := ofDigits_showNat i.natAbs
  have hne := showNat_ne_nil i.natAbs
  obtain ⟨c, t, hct⟩ : ∃ c t, showNat i.natAbs = c :: t := by
    cases hs : showNat i.natAbs with
    | nil => exact absurd hs hne
    | cons c t => exact ⟨c, t, rfl⟩
  have hc : isdigit c = true := hdig c (by rw [hct]; exact List.mem_cons_self _ _)
  have hnul : ∀ d ∈ showNat i.natAbs, decide (d ≠ '\x00') = true := fun d hd =>
    decide_eq_true (digit_ne d '\x00' (hdig d hd) (by decide))
  unfold stoi showInt
  by_cases hneg : i < 0
  · have hcs : c_str ('-' :: showNat i.natAbs) = '-' :: showNat i.natAbs := by
      unfold c_str
      apply takeWhile_all
      intro d hd
      rcases List.mem_cons.mp hd with rfl | hd
      · decide
      · exact hnul d hd
    have hds : ('-' :: showNat i.natAbs).dropWhile isspace = '-' :: showNat i.natAbs := by
      rw [List.dropWhile_cons]
      rfl
    simp only [if_pos hneg, hcs, hds, scanSign, takeWhile_all hdig, hval, if_neg hne, if_true]
    have : -(i.natAbs : Int) = i := by omega
    rw [this, if_pos ⟨h1, h2⟩]
  · have hcs : c_str (showNat i.natAbs) = showNat i.natAbs := by
      unfold c_str
      exact takeWhile_all hnul
    have hds : (showNat i.natAbs).dropWhile isspace = showNat i.natAbs := by
      rw [hct, List.dropWhile_cons, digit_not_space c hc]
      rfl
    have hss : scanSign (showNat i.natAbs) = (false, showNat i.natAbs) := by
      rw [hct]
      exact scanSign_digit c t hc
    simp only [if_neg hneg, hcs, hds, hss, takeWhile_all hdig, hval, if_neg hne]
    have : (i.natAbs : Int) = i := by omega
    simp only [Bool.false_eq_true, if_false, this]
    rw [if_pos ⟨h1, h2⟩]

theorem showInt_chars (i : Int) : ∀ c ∈ showInt i, c = '-' ∨ isdigit c = true := by
  intro c hc
  unfold showInt at hc
  split at hc
  · rcases List.mem_cons.mp hc with h | h
    · exact Or.inl h
    · exact Or.inr (showNat_digits _ c h)
  · exact Or.inr (showNat_digits _ c hc)

theorem digit_plain (c : Char) (h : isdigit c = true) : c ≠ ',' ∧ c ≠ '\n' :=
  ⟨digit_ne c ',' h (by decide), digit_ne c '\n' h (by decide)⟩

theorem mem_stripZeros {c : Char} {l : Str} (h : c ∈ stripZeros l) : c ∈ l := by
  unfold stripZeros at h
  rw [List.mem_reverse] at h
  exact List.mem_reverse.mp ((List.dropWhile_sublist _).subset h)

theorem showExp_plain (x : Int) : ∀ c ∈ showExp x, c ≠ ',' ∧ c ≠ '\n' := by
  intro c hc
  unfold showExp at hc
  rcases List.mem_cons.mp hc with h | h
  · subst h
    split <;> decide
  · split at h
    · rcases List.mem_cons.mp h with h | h
      · subst h; decide
      · exact digit_plain c (showNat_digits _ c h)
    · exact digit_plain c (showNat_digits _ c h)

theorem fmtDigits_plain (ds : Str) (x : Int) (hds : ∀ c ∈ ds, isdigit c = true) :
    ∀ c ∈ fmtDigits ds x, c ≠ ',' ∧ c ≠ '\n' := by
  intro c hc
  have hnat : ∀ c : Char, c ∈ ds → c ≠ ',' ∧ c ≠ '\n' := fun c h => digit_plain c (hds c h)
  unfold fmtDigits at hc
  split at hc
  · simp only [List.mem_append, List.mem_cons] at hc
    rcases hc with (h | h) | h | h
    · exact hnat c (List.mem_of_mem_take h)
    · split at h
      · exact absurd h (List.not_mem_nil c)
      · rcases List.mem_cons.mp h with h | h
        · subst h; decide
        · exact hnat c (List.mem_of_mem_drop (mem_stripZeros h))
    · subst h; decide
    · exact showExp_plain _ c h
  · split at hc
    · simp only [List.mem_append] at hc
      rcases hc with h | h
      · exact hnat c (List.mem_of_mem_take h)
      · split at h
        · exact absurd h (List.not_mem_nil c)
        · rcases List.mem_cons.mp h with h | h
          · subst h; decide
          · exact hnat c (List.mem_of_mem_drop (mem_stripZeros h))
    · simp only [List.mem_cons, List.mem_append, List.mem_replicate] at hc
      rcases hc with h | h | h | h
      · subst h; decide
      · subst h; decide
      · rw [h.2]; decide
      · exact hnat c (mem_stripZeros h)

theorem plain_of_all (l : Str) (h : l.all (fun c => decide (c ≠ ',') && decide (c ≠ '\n')) = true) :
    ∀ c ∈ l, c ≠ ',' ∧ c ≠ '\n' := by
  intro c hc
  have := List.all_eq_true.mp h c hc
  simpa using this

theorem showDouble_plain (p : Double) : ∀ c ∈ showDouble p, c ≠ ',' ∧ c ≠ '\n' := by
  cases p with
  | nan neg => cases neg <;> exact plain_of_all _ (by decide)
  | inf neg => cases neg <;> exact plain_of_all _ (by decide)
  | fin neg m e =>
    intro c hc
    unfold showDouble at hc
    rcases List.mem_append.mp hc with h | h
    · split at h
      · simp only [List.mem_singleton] at h
        subst h; decide
      · exact absurd h (List.not_mem_nil c)
    · split at h
      · simp only [List.mem_singleton] at h
        subst h; decide
      · exact fmtDigits_plain _ _ (showNat_digits _) c h

/-! ## Facts about the text of a saved record -/

theorem save_line_eq (it : Item) : save_line it = record_text it ++ ['\n'] := by
  simp [save_line, record_text]

theorem showInt_plain (i : Int) : ∀ c ∈ showInt i, c ≠ ',' ∧ c ≠ '\n' := by
  intro c hc
  rcases showInt_chars i c hc with h | h
  · subst h; decide
  · exact digit_plain c h

theorem showInt_ne_nil (i : Int) : showInt i ≠ [] := by
  unfold showInt
  split
  · simp
  · exact showNat_ne_nil _

theorem stod_nil : stod [] = none := by decide

theorem load_line_saved (s : State) (it : Item) (hint : it.isInt)
    (hname : ∀ c ∈ it.name, c ≠ ',')
    (hprice : stod (showDouble it.price) = some it.price) :
    load_line s (record_text it) =
      { s with
        items := s.items ++ [it]
        next_id := if s.next_id ≤ it.id then wrap32 (it.id + 1) else s.next_id } := by
  obtain ⟨h1, h2, h3, h4⟩ := hint
  have hA : ∀ c ∈ showInt it.id, c ≠ ',' := fun c hc => (showInt_plain _ c hc).1
  have hQ : ∀ c ∈ showInt it.qty, c ≠ ',' := fun c hc => (showInt_plain _ c hc).1
  have hP : ∀ c ∈ showDouble it.price, c ≠ ',' := fun c hc => (showDouble_plain _ c hc).1
  have hPne : showDouble it.price ≠ [] := by
    intro h
    rw [h, stod_nil] at hprice
    exact absurd hprice (by simp)
  have hne : record_text it ≠ [] := by
    unfold record_text
    intro h
    exact showInt_ne_nil it.id (List.append_eq_nil.mp h).1
  have g1 := getline_delim (showInt it.id)
    (it.name ++ ',' :: (showInt it.qty ++ ',' :: showDouble it.price)) [] ',' hA
  have g2 := getline_delim it.name (showInt it.qty ++ ',' :: showDouble it.price)
    (showInt it.id) ',' hname
  have g3 := getline_delim (showInt it.qty) (showDouble it.price) it.name ',' hQ
  have g4 := getline_last (showDouble it.price) (showInt it.qty) ',' hPne hP
  unfold load_line
  rw [if_neg hne]
  unfold record_text
  simp only [g1, g2, g3, g4, stoi_showInt it.id h1 h2, stoi_showInt it.qty h3 h4, hprice,
    if_true, Option.getD_some]
  simp

theorem record_text_no_newline (it : Item) (hname : ∀ c ∈ it.name, c ≠ '\n') :
    ∀ c ∈ record_text it, c ≠ '\n' := by
  intro c hc
  unfold record_text at hc
  simp only [List.mem_append, List.mem_cons] at hc
  rcases hc with h | h | h | h | h | h | h
  · exact (showInt_plain _ c h).2
  · subst h; decide
  · exact hname c h
  · subst h; decide
  · exact (showInt_plain _ c h).2
  · subst h; decide
  · exact (showDouble_plain _ c h).2

theorem save_fold (items : List Item) :
    ∀ acc : Str,
      items.foldl (fun out it => out ++ save_line it) acc =
        acc ++ items.foldr (fun it r => save_line it ++ r) [] := by
  induction items with
  | nil => intro acc; simp
  | cons it items ih =>
    intro acc
    rw [List.foldl_cons, ih, List.foldr_cons, List.append_assoc]

theorem lines_saved (items : List Item) (hname : ∀ it ∈ items, ∀ c ∈ it.name, c ≠ '\n') :
    lines (items.foldr (fun it r => save_line it ++ r) []) = items.map record_text := by
  induction items with
  | nil => simp [lines]
  | cons it items ih =>
    have h1 := record_text_no_newline it (hname it (List.mem_cons_self _ _))
    rw [List.foldr_cons, save_line_eq, List.append_assoc, List.singleton_append,
      lines_append_newline _ _ h1, ih (fun jt hj => hname jt (List.mem_cons_of_mem _ hj)),
      List.map_cons]

theorem load_saved_fold (items : List Item) :
    ∀ s : State, (∀ it ∈ items, it.isInt) → (∀ it ∈ items, ∀ c ∈ it.name, c ≠ ',') →
      (∀ it ∈ items, stod (showDouble it.price) = some it.price) →
      ((items.map record_text).foldl load_line s).items = s.items ++ items := by
  induction items with
  | nil => intro s _ _ _; simp
  | cons it items ih =>
    intro s h1 h2 h3
    rw [List.map_cons, List.foldl_cons,
      load_line_saved s it (h1 it (List.mem_cons_self _ _)) (h2 it (List.mem_cons_self _ _))
        (h3 it (List.mem_cons_self _ _)),
      ih _ (fun jt hj => h1 jt (List.mem_cons_of_mem _ hj))
        (fun jt hj => h2 jt (List.mem_cons_of_mem _ hj))
        (fun jt hj => h3 jt (List.mem_cons_of_mem _ hj))]
    simp

/-! ## Facts about `strtod`: the scanner and the grammar of floating constants -/

theorem span_head (p : Char → Bool) (xs rest : Str) (h1 : ∀ c ∈ xs, p c = true)
    (h2 : ∀ c t, rest = c :: t → p c = false) :
    (xs ++ rest).takeWhile p = xs ∧ (xs ++ rest).dropWhile p = rest := by
  induction xs with
  | nil =>
    cases rest with
    | nil => exact ⟨rfl, rfl⟩
    | cons c t =>
      have := h2 c t rfl
      simp only [List.nil_append, List.takeWhile_cons, List.dropWhile_cons, this]
      exact ⟨rfl, rfl⟩
  | cons a xs ih =>
    have ha := h1 a (List.mem_cons_self _ _)
    obtain ⟨i1, i2⟩ := ih (fun c hc => h1 c (List.mem_cons_of_mem _ hc))
    simp only [List.cons_append, List.takeWhile_cons, List.dropWhile_cons, ha, i1, i2]
    exact ⟨rfl, rfl⟩

theorem dropWhile_head (p : Char → Bool) (l : Str) :
    ∀ c t, l.dropWhile p = c :: t → p c = false := by
  intro c t h
  have := List.head_dropWhile_not p l (by rw [h]; simp)
  simpa [h] using this

theorem scanSign_spec (r : Str) : ∃ sg, IsSign sg ∧ r = sg ++ (scanSign r).2 := by
  unfold scanSign
  split
  · exact ⟨['-'], Or.inr (Or.inr rfl), rfl⟩
  · exact ⟨['+'], Or.inr (Or.inl rfl), rfl⟩
  · exact ⟨[], Or.inl rfl, rfl⟩

theorem scanSign_of (sg b : Str) (hs : IsSign sg)
    (hb : ∀ c t, b = c :: t → c ≠ '-' ∧ c ≠ '+') : (scanSign (sg ++ b)).2 = b := by
  rcases hs with rfl | rfl | rfl
  · cases b with
    | nil => rfl
    | cons c t =>
      obtain ⟨h1, h2⟩ := hb c t rfl
      simp only [List.nil_append]
      unfold scanSign
      split
      · rename_i heq; injection heq with e _; exact absurd e h1
      · rename_i heq; injection heq with e _; exact absurd e h2
      · rfl
  · rfl
  · rfl

theorem scanExp_iff (isMark : Char → Bool) (ex : Str) :
    (scanExp isMark ex).2 = [] ↔ IsExp isMark ex := by
  constructor
  · intro h
    cases ex with
    | nil => exact Or.inl rfl
    | cons m r =>
      unfold scanExp at h
      simp only at h
      by_cases hm : isMark m = true
      · rw [if_pos hm] at h
        by_cases hd : (scanSign r).2.takeWhile isdigit = []
        · rw [if_pos hd] at h
          exact absurd h (by simp)
        · rw [if_neg hd] at h
          simp only at h
          obtain ⟨sg, hsg, hr⟩ := scanSign_spec r
          have hall : (scanSign r).2.takeWhile isdigit = (scanSign r).2 := by
            have := List.takeWhile_append_dropWhile isdigit (scanSign r).2
            rw [h, List.append_nil] at this
            exact this
          refine Or.inr ⟨m, sg, (scanSign r).2, by rw [← hr], hm, hsg, ?_, ?_⟩
          · rw [← hall]; exact hd
          · intro c hc
            rw [← hall] at hc
            exact List.mem_takeWhile_imp hc
      · rw [if_neg hm] at h
        exact absurd h (by simp)
  · intro h
    rcases h with rfl | ⟨m, sg, ds, rfl, hm, hsg, hne, hds⟩
    · rfl
    · have hss : (scanSign (sg ++ ds)).2 = ds := by
        apply scanSign_of sg ds hsg
        intro c t hct
        have hc : isdigit c = true := hds c (by rw [hct]; exact List.mem_cons_self _ _)
        exact ⟨digit_ne c '-' hc (by decide), digit_ne c '+' hc (by decide)⟩
      have hsp := span_head isdigit ds [] hds (fun c t h => by cases h)
      rw [List.append_nil] at hsp
      unfold scanExp
      simp only [hm, if_true, hss, hsp.1, hsp.2, if_neg hne]

theorem scanMantissa_point (isd : Char → Bool) (b t : Str) (h : b.dropWhile isd = '.' :: t) :
    scanMantissa isd b = (b.takeWhile isd, t.takeWhile isd, t.dropWhile isd) := by
  unfold scanMantissa
  rw [h]
  rfl

theorem scanMantissa_plain (isd : Char → Bool) (b : Str) (h : ∀ t, b.dropWhile isd ≠ '.' :: t) :
    scanMantissa isd b = (b.takeWhile isd, [], b.dropWhile isd) := by
  unfold scanMantissa
  split
  · rename_i t heq
    exact absurd heq (h t)
  · rfl

theorem isExp_head {isMark : Char → Bool} {ex : Str} (h : IsExp isMark ex) :
    ∀ c t, ex = c :: t → isMark c = true := by
  intro c t hct
  rcases h with rfl | ⟨m, sg, ds, rfl, hm, _, _, _⟩
  · cases hct
  · injection hct with e _
    rw [← e]; exact hm

theorem scanNumber_iff (isd isMark : Char → Bool) (mk : Str → Str → Int → FloatLit)
    (hdot : isd '.' = false) (hmark : ∀ c, isMark c = true → isd c = false ∧ c ≠ '.')
    (b : Str) :
    (∃ l, scanNumber isd isMark mk b = some (l, [])) ↔
      ∃ m ex, b = m ++ ex ∧ IsMantissa isd m ∧ IsExp isMark ex := by
  have hsplit := List.takeWhile_append_dropWhile isd b
  have hip : ∀ c ∈ b.takeWhile isd, isd c = true := fun c hc => List.mem_takeWhile_imp hc
  constructor
  · rintro ⟨l, h⟩
    unfold scanNumber at h
    by_cases hp : ∃ t, b.dropWhile isd = '.' :: t
    · obtain ⟨t, ht⟩ := hp
      have hsplit2 := List.takeWhile_append_dropWhile isd t
      rw [scanMantissa_point isd b t ht] at h
      simp only at h
      split at h
      · exact absurd h (by simp)
      · rename_i hne
        injection h with h
        injection h with _ h
        refine ⟨b.takeWhile isd ++ '.' :: t.takeWhile isd, t.dropWhile isd, ?_,
          ⟨b.takeWhile isd, t.takeWhile isd, hip, fun c hc => List.mem_takeWhile_imp hc,
            Or.inr ⟨rfl, ?_⟩⟩, (scanExp_iff _ _).mp h⟩
        · rw [List.append_assoc, List.cons_append, hsplit2, ← ht, hsplit]
        · by_contra hc
          rw [not_or, not_not, not_not] at hc
          exact hne hc
    · have hp2 : ∀ t, b.dropWhile isd ≠ '.' :: t := fun t ht => hp ⟨t, ht⟩
      rw [scanMantissa_plain isd b hp2] at h
      simp only at h
      split at h
      · exact absurd h (by simp)
      · rename_i hne
        injection h with h
        injection h with _ h
        refine ⟨b.takeWhile isd, b.dropWhile isd, hsplit.symm,
          ⟨b.takeWhile isd, [], hip, fun c hc => absurd hc (List.not_mem_nil c),
            Or.inl ⟨rfl, rfl, ?_⟩⟩, (scanExp_iff _ _).mp h⟩
        intro hc
        exact hne ⟨hc, trivial⟩
  · rintro ⟨m, ex, rfl, ⟨ip, fp, hi, hf, hm⟩, hex⟩
    have hexhead : ∀ c t, ex = c :: t → isd c = false := fun c t hct =>
      (hmark c (isExp_head hex c t hct)).1
    have hexit := (scanExp_iff isMark ex).mpr hex
    rcases hm with ⟨rfl, rfl, hne⟩ | ⟨rfl, hne⟩
    · obtain ⟨s1, s2⟩ := span_head isd m ex hi hexhead
      have hp2 : ∀ t, (m ++ ex).dropWhile isd ≠ '.' :: t := by
        intro t ht
        rw [s2] at ht
        exact (hmark '.' (isExp_head hex '.' t ht)).2 rfl
      unfold scanNumber
      rw [scanMantissa_plain isd _ hp2, s1, s2]
      simp only
      rw [if_neg (fun h => hne h.1)]
      exact ⟨_, by rw [hexit]⟩
    · have e1 : ip ++ '.' :: fp ++ ex = ip ++ '.' :: (fp ++ ex) := by simp
      obtain ⟨s1, s2⟩ := span_head isd ip ('.' :: (fp ++ ex)) hi
        (fun c t h => by injection h with e _; rw [← e]; exact hdot)
      obtain ⟨s3, s4⟩ := span_head isd fp ex hf hexhead
      unfold scanNumber
      rw [e1, scanMantissa_point isd _ (fp ++ ex) s2, s1, s3, s4]
      simp only
      rw [if_neg (fun h => by rcases hne with h1 | h1 <;> [exact h1 h.1; exact h1 h.2])]
      exact ⟨_, by rw [hexit]⟩

theorem scanDec_iff (b : Str) : (∃ l, scanDec b = some (l, [])) ↔ IsDecFloat b := by
  unfold scanDec IsDecFloat
  apply scanNumber_iff
  · decide
  · intro c hc
    simp only [Bool.or_eq_true, decide_eq_true_eq] at hc
    rcases hc with rfl | rfl <;> decide

theorem scanHex_iff (b : Str) :
    (∃ l, scanHex b = some (l, [])) ↔
      ∃ m ex, b = m ++ ex ∧ IsMantissa isxdigit m ∧ IsExp (fun c => c = 'p' || c = 'P') ex := by
  unfold scanHex
  apply scanNumber_iff
  · decide
  · intro c hc
    simp only [Bool.or_eq_true, decide_eq_true_eq] at hc
    rcases hc with rfl | rfl <;> decide

theorem prefixCI_exact (w : Str) :
    ∀ b : Str, (prefixCI w b = true ∧ b.drop w.length = []) ↔ b.map tolower = w := by
  induction w with
  | nil =>
    intro b
    cases b <;> simp [prefixCI]
  | cons a w ih =>
    intro b
    cases b with
    | nil => simp [prefixCI]
    | cons c cs =>
      have := ih cs
      simp only [prefixCI, Bool.and_eq_true, decide_eq_true_eq, List.length_cons,
        List.drop_succ_cons, List.map_cons, List.cons.injEq]
      constructor
      · rintro ⟨⟨h1, h2⟩, h3⟩
        exact ⟨h1, this.mp ⟨h2, h3⟩⟩
      · rintro ⟨h1, h2⟩
        obtain ⟨h3, h4⟩ := this.mpr h2
        exact ⟨⟨h1, h3⟩, h4⟩

theorem prefixCI_take (w : Str) :
    ∀ b : Str, prefixCI w b = true →
      (b.take w.length).map tolower = w ∧ b = b.take w.length ++ b.drop w.length := by
  intro b h
  refine ⟨?_, (List.take_append_drop _ _).symm⟩
  induction w generalizing b with
  | nil => simp
  | cons a w ih =>
    cases b with
    | nil => simp [prefixCI] at h
    | cons c cs =>
      simp only [prefixCI, Bool.and_eq_true, decide_eq_true_eq] at h
      simp [h.1, ih cs h.2]

theorem prefixCI_append (w : Str) :
    ∀ v rest : Str, v.map tolower = w →
      prefixCI w (v ++ rest) = true ∧ (v ++ rest).drop w.length = rest := by
  induction w with
  | nil =>
    intro v rest h
    cases v with
    | nil => simp [prefixCI]
    | cons c cs => simp at h
  | cons a w ih =>
    intro v rest h
    cases v with
    | nil => simp at h
    | cons c cs =>
      simp only [List.map_cons, List.cons.injEq] at h
      obtain ⟨h1, h2⟩ := ih cs rest h.2
      simp [prefixCI, h.1, h1, h2]

theorem prefixCI_head (a : Char) (w : Str) (c : Char) (cs : Str)
    (h : prefixCI (a :: w) (c :: cs) = true) : tolower c = a := by
  simp only [prefixCI, Bool.and_eq_true, decide_eq_true_eq] at h
  exact h.1

theorem scanNanPayload_iff (cs : Str) :
    scanNanPayload cs = [] ↔
      cs = [] ∨ ∃ pl, cs = '(' :: (pl ++ [')']) ∧ ∀ c ∈ pl, isnchar c = true := by
  constructor
  · intro h
    unfold scanNanPayload at h
    split at h
    · rename_i t
      split at h
      · rename_i r heq
        subst h
        refine Or.inr ⟨t.takeWhile isnchar, ?_, fun c hc => List.mem_takeWhile_imp hc⟩
        rw [← heq, List.takeWhile_append_dropWhile]
      · exact absurd h (by simp)
    · exact Or.inl h
  · rintro (rfl | ⟨pl, rfl, hpl⟩)
    · rfl
    · obtain ⟨_, h2⟩ := span_head isnchar pl [')'] hpl
        (fun c t h => by injection h with e _; rw [← e]; decide)
      unfold scanNanPayload
      simp only [h2]

theorem tolower_digit (c : Char) (h : isdigit c = true) : tolower c = c := by
  unfold isdigit at h
  simp only [Bool.and_eq_true, decide_eq_true_eq] at h
  unfold tolower
  rw [if_neg]
  simp only [Bool.and_eq_true, decide_eq_true_eq]
  omega

/-- The first character of a mantissa is a digit or the radix point. -/
theorem mantissa_head {isd : Char → Bool} {m : Str} (h : IsMantissa isd m) :
    ∃ c t, m = c :: t ∧ (isd c = true ∨ c = '.') := by
  obtain ⟨ip, fp, hi, hf, hm⟩ := h
  cases ip with
  | nil =>
    rcases hm with ⟨_, _, hne⟩ | ⟨rfl, _⟩
    · exact absurd rfl hne
    · exact ⟨'.', fp, rfl, Or.inr rfl⟩
  | cons c t =>
    have hc := hi c (List.mem_cons_self _ _)
    rcases hm with ⟨rfl, _, _⟩ | ⟨rfl, _⟩
    · exact ⟨c, t, rfl, Or.inl hc⟩
    · exact ⟨c, t ++ '.' :: fp, rfl, Or.inl hc⟩

theorem decFloat_head {b : Str} (h : IsDecFloat b) :
    ∃ c t, b = c :: t ∧ (isdigit c = true ∨ c = '.') := by
  obtain ⟨m, ex, rfl, hm, _⟩ := h
  obtain ⟨c, t, rfl, hc⟩ := mantissa_head hm
  exact ⟨c, t ++ ex, rfl, hc⟩

/-- No character of a decimal floating constant is `x` or `X`. -/
theorem decFloat_chars {b : Str} (h : IsDecFloat b) : ∀ c ∈ b, c ≠ 'x' ∧ c ≠ 'X' := by
  obtain ⟨m, ex, rfl, ⟨ip, fp, hi, hf, hm⟩, hex⟩ := h
  have hd : ∀ c : Char, isdigit c = true → c ≠ 'x' ∧ c ≠ 'X' := fun c hc =>
    ⟨digit_ne c 'x' hc (by decide), digit_ne c 'X' hc (by decide)⟩
  have hmc : ∀ c ∈ m, c ≠ 'x' ∧ c ≠ 'X' := by
    intro c hc
    rcases hm with ⟨rfl, _, _⟩ | ⟨rfl, _⟩
    · exact hd c (hi c hc)
    · rcases List.mem_append.mp hc with h | h
      · exact hd c (hi c h)
      · rcases List.mem_cons.mp h with h | h
        · subst h; decide
        · exact hd c (hf c h)
  intro c hc
  rcases List.mem_append.mp hc with h | h
  · exact hmc c h
  · rcases hex with rfl | ⟨mk, sg, ds, rfl, hmk, hsg, _, hds⟩
    · exact absurd h (List.not_mem_nil c)
    · rcases List.mem_cons.mp h with h | h
      · subst h
        simp only [Bool.or_eq_true, decide_eq_true_eq] at hmk
        rcases hmk with rfl | rfl <;> decide
      · rcases List.mem_append.mp h with h | h
        · rcases hsg with rfl | rfl | rfl
          · exact absurd h (List.not_mem_nil c)
          · simp only [List.mem_singleton] at h
            subst h; decide
          · simp only [List.mem_singleton] at h
            subst h; decide
        · exact hd c (hds c h)

theorem infNan_head {b : Str} (h : IsInfNan b) :
    ∃ c t, b = c :: t ∧ (tolower c = 'i' ∨ tolower c = 'n') := by
  have key : ∀ (v : Str) (a : Char) (w : Str), v.map tolower = a :: w →
      ∃ c t, v = c :: t ∧ tolower c = a := by
    intro v a w hv
    cases v with
    | nil => simp at hv
    | cons c t =>
      simp only [List.map_cons, List.cons.injEq] at hv
      exact ⟨c, t, rfl, hv.1⟩
  rcases h with h | h | h | ⟨w, pl, rfl, hw, _⟩
  · obtain ⟨c, t, e, hc⟩ := key b _ _ h
    exact ⟨c, t, e, Or.inl hc⟩
  · obtain ⟨c, t, e, hc⟩ := key b _ _ h
    exact ⟨c, t, e, Or.inl hc⟩
  · obtain ⟨c, t, e, hc⟩ := key b _ _ h
    exact ⟨c, t, e, Or.inr hc⟩
  · obtain ⟨c, t, rfl, hc⟩ := key w _ _ hw
    exact ⟨c, t ++ '(' :: (pl ++ [')']), rfl, Or.inr hc⟩

theorem prefixCI_false_of_head (a : Char) (w : Str) (c : Char) (t : Str) (h : tolower c ≠ a) :
    prefixCI (a :: w) (c :: t) = false := by
  simp [prefixCI, h]

theorem scanBody_sound (b : Str) (l : FloatLit) (h : scanBody b = some (l, [])) :
    IsInfNan b ∨ IsHexFloat b ∨ IsDecFloat b := by
  unfold scanBody at h
  split at h
  · rename_i hp
    injection h with h
    injection h with _ hr
    exact Or.inl (Or.inr (Or.inl ((prefixCI_exact _ b).mp ⟨hp, hr⟩)))
  · split at h
    · rename_i hp
      injection h with h
      injection h with _ hr
      exact Or.inl (Or.inl ((prefixCI_exact _ b).mp ⟨hp, hr⟩))
    · split at h
      · rename_i hp
        injection h with h
        injection h with _ hr
        obtain ⟨h1, h2⟩ := prefixCI_take _ b hp
        rcases (scanNanPayload_iff _).mp hr with h0 | ⟨pl, hpl, hn⟩
        · exact Or.inl (Or.inr (Or.inr (Or.inl ((prefixCI_exact _ b).mp ⟨hp, h0⟩))))
        · exact Or.inl (Or.inr (Or.inr (Or.inr ⟨b.take 3, pl, by rw [← hpl]; exact h2, h1, hn⟩)))
      · rename_i hn1 hn2 hn3
        clear hn1 hn2 hn3
        simp only at h
        split at h
        · rename_i r heq
          injection h with h
          subst h
          split at heq
          · rename_i x r2
            split at heq
            · rename_i hx
              obtain ⟨m, ex, rfl, hm, hex⟩ := (scanHex_iff r2).mp ⟨l, heq⟩
              exact Or.inr (Or.inl ⟨x, m, ex, rfl, hx, hm, hex⟩)
            · exact absurd heq (by simp)
          · exact absurd heq (by simp)
        · exact Or.inr (Or.inr ((scanDec_iff b).mp ⟨l, h⟩))

theorem map_tolower_length {b w : Str} (h : b.map tolower = w) : b.length = w.length := by
  rw [← h, List.length_map]

theorem scanBody_complete (b : Str) (h : IsInfNan b ∨ IsHexFloat b ∨ IsDecFloat b) :
    ∃ l, scanBody b = some (l, []) := by
  rcases h with h | h | h
  · obtain ⟨c, t, hb, hc⟩ := infNan_head h
    rcases h with h | h | h | ⟨w, pl, rfl, hw, hpl⟩
    · have h8 : prefixCI ['i', 'n', 'f', 'i', 'n', 'i', 't', 'y'] b = false := by
        by_contra hp
        rw [Bool.not_eq_false] at hp
        obtain ⟨h1, _⟩ := prefixCI_take _ b hp
        have l1 := map_tolower_length h1
        have l2 := map_tolower_length h
        simp only [List.length_cons, List.length_nil, List.length_take] at l1 l2
        omega
      obtain ⟨h3, h4⟩ := (prefixCI_exact _ b).mpr h
      have h4b : b.drop 3 = [] := h4
      unfold scanBody
      simp only [h8, h3, if_true, Bool.false_eq_true, if_false]
      exact ⟨_, by rw [h4b]⟩
    · obtain ⟨h3, h4⟩ := (prefixCI_exact _ b).mpr h
      have h4b : b.drop 8 = [] := h4
      unfold scanBody
      simp only [h3, if_true]
      exact ⟨_, by rw [h4b]⟩
    · obtain ⟨h3, h4⟩ := (prefixCI_exact _ b).mpr h
      have hn : tolower c = 'n' := by
        rw [hb] at h
        simp only [List.map_cons, List.cons.injEq] at h
        exact h.1
      have h8 := prefixCI_false_of_head 'i' ['n', 'f', 'i', 'n', 'i', 't', 'y'] c t
        (by rw [hn]; decide)
      have h3i := prefixCI_false_of_head 'i' ['n', 'f'] c t (by rw [hn]; decide)
      unfold scanBody
      rw [hb] at h3 h4 ⊢
      have h4b : (c :: t).drop 3 = [] := h4
      simp only [h8, h3i, h3, if_true, Bool.false_eq_true, if_false]
      exact ⟨_, by rw [h4b]; rfl⟩
    · obtain ⟨h3, h4⟩ := prefixCI_append _ w ('(' :: (pl ++ [')'])) hw
      have hn : tolower c = 'n' := by
        cases w with
        | nil => simp at hw
        | cons a w2 =>
          simp only [List.map_cons, List.cons.injEq] at hw
          simp only [List.cons_append, List.cons.injEq] at hb
          rw [← hb.1]
          exact hw.1
      have hpay := (scanNanPayload_iff ('(' :: (pl ++ [')']))).mpr (Or.inr ⟨pl, rfl, hpl⟩)
      unfold scanBody
      rw [hb] at h3 h4 ⊢
      have h8 := prefixCI_false_of_head 'i' ['n', 'f', 'i', 'n', 'i', 't', 'y'] c t
        (by rw [hn]; decide)
      have h3i := prefixCI_false_of_head 'i' ['n', 'f'] c t (by rw [hn]; decide)
      have h4b : (c :: t).drop 3 = '(' :: (pl ++ [')']) := h4
      simp only [h8, h3i, h3, if_true, Bool.false_eq_true, if_false]
      exact ⟨_, by rw [h4b, hpay]⟩
  · obtain ⟨x, m, ex, rfl, hx, hm, hex⟩ := h
    obtain ⟨l, hl⟩ := (scanHex_iff (m ++ ex)).mpr ⟨m, ex, rfl, hm, hex⟩
    unfold scanBody
    simp only [prefixCI_false_of_head 'i' _ '0' _ (by decide),
      prefixCI_false_of_head 'n' _ '0' _ (by decide), Bool.false_eq_true, if_false, if_pos hx, hl]
    exact ⟨l, rfl⟩
  · obtain ⟨c, t, hb, hc⟩ := decFloat_head h
    have hchars := decFloat_chars h
    obtain ⟨l, hl⟩ := (scanDec_iff b).mpr h
    have hi : tolower c ≠ 'i' ∧ tolower c ≠ 'n' := by
      rcases hc with hc | rfl
      · rw [tolower_digit c hc]
        exact ⟨digit_ne c 'i' hc (by decide), digit_ne c 'n' hc (by decide)⟩
      · decide
    subst hb
    unfold scanBody
    simp only [prefixCI_false_of_head 'i' _ c _ hi.1, prefixCI_false_of_head 'n' _ c _ hi.2,
      Bool.false_eq_true, if_false]
    split
    · rename_i r heq
      split at heq
      · rename_i x r2 _
        rename_i heq2
        have hx := hchars x (by rw [heq2]; simp)
        rw [if_neg (by rintro (e | e) <;> [exact hx.1 e; exact hx.2 e])] at heq
        exact absurd heq (by simp)
      · exact absurd heq (by simp)
    · exact ⟨l, hl⟩

theorem body_head {b : Str} (h : IsInfNan b ∨ IsHexFloat b ∨ IsDecFloat b) :
    ∃ c t, b = c :: t ∧ isspace c = false ∧ c ≠ '-' ∧ c ≠ '+' := by
  have key : ∀ c : Char, (∀ x : Char, isspace x = true ∨ x = '-' ∨ x = '+' → c ≠ x) →
      isspace c = false ∧ c ≠ '-' ∧ c ≠ '+' := by
    intro c hc
    refine ⟨?_, hc '-' (Or.inr (Or.inl rfl)), hc '+' (Or.inr (Or.inr rfl))⟩
    simp [isspace, hc ' ' (Or.inl (by decide)), hc '\t' (Or.inl (by decide)),
      hc '\n' (Or.inl (by decide)), hc '\x0b' (Or.inl (by decide)),
      hc '\x0c' (Or.inl (by decide)), hc '\r' (Or.inl (by decide))]
  have hx : ∀ x : Char, isspace x = true ∨ x = '-' ∨ x = '+' →
      tolower x ≠ 'i' ∧ tolower x ≠ 'n' ∧ isdigit x = false ∧ x ≠ '.' ∧ x ≠ '0' := by
    intro x hx
    rcases hx with hx | rfl | rfl
    · simp only [isspace, Bool.or_eq_true, decide_eq_true_eq] at hx
      rcases hx with ((((rfl | rfl) | rfl) | rfl) | rfl) | rfl <;> decide
    · decide
    · decide
  rcases h with h | h | h
  · obtain ⟨c, t, hb, hc⟩ := infNan_head h
    refine ⟨c, t, hb, key c (fun x hxx e => ?_)⟩
    subst e
    rcases hc with hc | hc
    · exact (hx c hxx).1 hc
    · exact (hx c hxx).2.1 hc
  · obtain ⟨x, m, ex, rfl, _⟩ := h
    exact ⟨'0', _, rfl, by decide, by decide, by decide⟩
  · obtain ⟨c, t, hb, hc⟩ := decFloat_head h
    refine ⟨c, t, hb, key c (fun x hxx e => ?_)⟩
    subst e
    rcases hc with hc | hc
    · rw [(hx c hxx).2.2.1] at hc
      exact Bool.noConfusion hc
    · exact (hx c hxx).2.2.2.1 hc

/-- `strtod` consumes a whole text exactly when the text is a floating constant in
the sense of the grammar. -/
theorem strtod_scan_iff (t : Str) :
    (∃ neg l, strtod_scan t = some (neg, l, [])) ↔ FloatText t := by
  constructor
  · rintro ⟨neg, l, h⟩
    unfold strtod_scan at h
    simp only at h
    split at h
    · rename_i l2 r heq
      injection h with h
      injection h with _ h
      injection h with _ h
      subst h
      obtain ⟨sg, hsg, hr⟩ := scanSign_spec (t.dropWhile isspace)
      refine ⟨t.takeWhile isspace, sg, _, ?_, fun c hc => List.mem_takeWhile_imp hc, hsg,
        scanBody_sound _ _ heq⟩
      rw [← hr, List.takeWhile_append_dropWhile]
    · exact absurd h (by simp)
  · rintro ⟨ws, sg, b, rfl, hws, hsg, hb⟩
    obtain ⟨c, t, hct, hsp, hm, hp⟩ := body_head hb
    obtain ⟨l, hl⟩ := scanBody_complete b hb
    have hdrop : (ws ++ (sg ++ b)).dropWhile isspace = sg ++ b := by
      refine (span_head isspace ws (sg ++ b) hws ?_).2
      intro d u hdu
      rcases hsg with rfl | rfl | rfl
      · rw [List.nil_append, hct] at hdu
        injection hdu with e _
        rw [← e]; exact hsp
      · injection hdu with e _
        rw [← e]; decide
      · injection hdu with e _
        rw [← e]; decide
    have hss : (scanSign (sg ++ b)).2 = b := by
      apply scanSign_of sg b hsg
      intro d u hdu
      rw [hct] at hdu
      injection hdu with e _
      rw [← e]; exact ⟨hm, hp⟩
    unfold strtod_scan
    simp only [hdrop, hss, hl]
    exact ⟨_, _, rfl⟩

theorem strtod_scan_nil : strtod_scan [] = none := by decide

/-! ## Facts about searching, names, fields and reloading -/

theorem contains_iff (name term : Str) : contains name term = true ↔ term <:+: name := by
  unfold contains
  rw [List.any_eq_true, List.infix_iff_prefix_suffix]
  constructor
  · rintro ⟨t, ht, hp⟩
    exact ⟨t, List.isPrefixOf_iff_prefix.mp hp, (List.mem_tails t name).mp ht⟩
  · rintro ⟨t, hp, hs⟩
    exact ⟨t, (List.mem_tails t name).mpr hs, List.isPrefixOf_iff_prefix.mpr hp⟩

theorem search_fold (term : Str) (items : List Item) :
    ∀ (b : Bool) (o : Str),
      items.foldl (search_scan term) (b, o) =
        (b || decide (matching items term ≠ []),
          o ++ (if matching items term = [] then []
            else (if b then [] else "ID\tName\tQty\tPrice\n".toList ++
              "--------------------------------\n".toList) ++
              ((matching items term).map search_row).flatten)) := by
  induction items with
  | nil => intro b o; simp [matching]
  | cons it items ih =>
    intro b o
    rw [List.foldl_cons]
    by_cases hc : contains it.name term = true
    · have hm : matching (it :: items) term = it :: matching items term := by
        unfold matching
        rw [List.filter_cons_of_pos (by simpa using (contains_iff _ _).mp hc)]
      have hs : search_scan term (b, o) it =
          (true, (if b then o else o ++ "ID\tName\tQty\tPrice\n".toList ++
            "--------------------------------\n".toList) ++ search_row it) := by
        unfold search_scan
        rw [if_pos hc]
      rw [hs, ih, hm]
      cases b <;> by_cases hn : matching items term = [] <;> simp [hn, List.append_assoc]
    · have hm : matching (it :: items) term = matching items term := by
        unfold matching
        rw [List.filter_cons_of_neg (by
          simpa using fun h => hc ((contains_iff _ _).mpr h))]
      have hs : search_scan term (b, o) it = (b, o) := by
        unfold search_scan
        rw [if_neg hc]
      rw [hs, ih, hm]

theorem prompt_loop_valid (valid : Str → Bool) (msg : Str) (fuel : Nat) :
    ∀ (cin : IStream) (v out : Str) (r : Str × IStream × Str),
      prompt_loop valid msg fuel cin v out = some r → valid r.1 = true := by
  induction fuel with
  | zero => intro cin v out r h; simp [prompt_loop] at h
  | succ fuel ih =>
    intro cin v out r h
    unfold prompt_loop at h
    by_cases hv : valid v = true
    · rw [if_pos hv] at h
      injection h with h
      rw [← h]
      exact hv
    · rw [if_neg hv] at h
      exact ih _ _ _ r h

theorem add_item_name {s s1 : State} (h : add_item s = Outcome.ok s1) :
    ∃ it, s1.items = s.items ++ [it] ∧ it.name ≠ [] := by
  unfold add_item at h
  simp only at h
  split at h
  · exact absurd h (by simp)
  · rename_i name cin1 out1 hname
    have hv := prompt_loop_valid _ _ _ _ _ _ _ hname
    split at h
    · exact absurd h (by simp)
    · split at h
      · exact absurd h (by simp)
      · split at h
        · exact absurd h (by simp)
        · split at h
          · exact absurd h (by simp)
          · injection h with h
            subst h
            exact ⟨_, rfl, by simpa using hv⟩

theorem update_item_names {s s1 : State} (h : update_item s = Outcome.ok s1)
    (hn : ∀ it ∈ s.items, it.name ≠ []) : ∀ it ∈ s1.items, it.name ≠ [] := by
  unfold update_item at h
  simp only at h
  split at h
  · injection h with h
    subst h
    exact hn
  · split at h
    · exact absurd h (by simp)
    · split at h
      · injection h with h
        subst h
        exact hn
      · rename_i i it hfind
        split at h
        · exact absurd h (by simp)
        · split at h
          · exact absurd h (by simp)
          · injection h with h
            subst h
            intro jt hj
            have hit : it ∈ s.items := List.get?_mem (find_item_by_id_some hfind).1
            rcases List.mem_or_eq_of_mem_set hj with hj | hj
            · exact hn jt hj
            · subst hj
              simp only
              split
              · assumption
              · exact hn it hit

theorem exec_names {c : Cmd} {s s1 : State} (h : exec c s = Outcome.ok s1)
    (hn : ∀ it ∈ s.items, it.name ≠ []) : ∀ it ∈ s1.items, it.name ≠ [] := by
  cases c with
  | add =>
    obtain ⟨it, hi, hne⟩ := add_item_name h
    intro jt hj
    rw [hi, List.mem_append, List.mem_singleton] at hj
    rcases hj with hj | rfl
    · exact hn jt hj
    · exact hne
  | update => exact update_item_names h hn
  | remove =>
    obtain ⟨⟨p, hi⟩, _, _⟩ := remove_item_ok h
    intro jt hj
    rw [hi] at hj
    exact hn jt (List.mem_filter.mp hj).1

theorem iterate_loop_names (n : Nat) :
    ∀ s s1 : State, iterate_loop n s = some s1 → (∀ it ∈ s.items, it.name ≠ []) →
      ∀ it ∈ s1.items, it.name ≠ [] := by
  induction n with
  | zero =>
    intro s s1 h hn
    simp only [iterate_loop, Option.some.injEq] at h
    subst h
    exact hn
  | succ n ih =>
    intro s s1 h hn
    unfold iterate_loop at h
    cases hx : main_step s with
    | next s2 =>
      rw [hx] at h
      simp only at h
      refine ih s2 s1 h ?_
      rcases main_step_cases hx with ⟨h1, _, _⟩ | ⟨c, s0, hc, h1, _, _⟩
      · rw [h1]; exact hn
      · exact exec_names hc (by rw [h1]; exact hn)
    | done s2 => rw [hx] at h; exact absurd h (by simp)
    | crash => rw [hx] at h; exact absurd h (by simp)
    | hang => rw [hx] at h; exact absurd h (by simp)

theorem splitFields_comma (tok rest : Str) (h : ∀ c ∈ tok, c ≠ ',') :
    splitFields (tok ++ ',' :: rest) = tok :: splitFields rest := by
  induction tok with
  | nil => simp [splitFields]
  | cons c tok ih =>
    have hc : c ≠ ',' := h c (List.mem_cons_self _ _)
    have ih1 := ih (fun d hd => h d (List.mem_cons_of_mem _ hd))
    simp [splitFields, hc, ih1]

theorem splitFields_single (tok : Str) (h : ∀ c ∈ tok, c ≠ ',') : splitFields tok = [tok] := by
  induction tok with
  | nil => rfl
  | cons c tok ih =>
    have hc : c ≠ ',' := h c (List.mem_cons_self _ _)
    have ih1 := ih (fun d hd => h d (List.mem_cons_of_mem _ hd))
    rw [splitFields, if_neg hc, ih1]

/-- One `std::getline(ss, token, ',')`: the fields left in the stream afterwards, and
the field it read. -/
theorem getline_fields (st : IStream) (str : Str) :
    streamFields (getline st str ',').2.2 = (streamFields st).tail ∧
      ((getline st str ',').1 = true →
        (streamFields st).head? = some (getline st str ',').2.1) ∧
      ((getline st str ',').1 = false →
        (streamFields st).head? = none ∨ (streamFields st).head? = some []) := by
  cases st with
  | none => simp [getline_closed, streamFields]
  | some buf =>
    rcases split_first buf ',' with hno | ⟨tok, rest, rfl, htok⟩
    · by_cases hb : buf = []
      · subst hb
        simp [getline_empty, streamFields, splitFields]
      · simp [getline_last buf str ',' hb hno, streamFields, splitFields_single buf hno]
    · simp [getline_delim tok rest str ',' htok, streamFields, splitFields_comma tok rest htok]

theorem stoi_zero : stoi ['0'] = some 0 := by decide

theorem stoi_nil : stoi [] = none := by decide

theorem stod_zero : stod ['0'] = some Double.zero := by decide

theorem field_name (st : IStream) (str : Str) :
    (if (getline st str ',').1 = true then (getline st str ',').2.1 else []) =
      ((streamFields st).head?).getD [] := by
  obtain ⟨_, h1, h2⟩ := getline_fields st str
  cases hg : (getline st str ',').1 with
  | true => simp [h1 hg]
  | false => rcases h2 hg with h | h <;> simp [h]

theorem field_qty (st : IStream) (str : Str) :
    (stoi (if (getline st str ',').1 = true then (getline st str ',').2.1 else ['0'])).getD 0 =
      (((streamFields st).head?).bind stoi).getD 0 := by
  obtain ⟨_, h1, h2⟩ := getline_fields st str
  cases hg : (getline st str ',').1 with
  | true => simp [h1 hg]
  | false => rcases h2 hg with h | h <;> simp [h, stoi_zero, stoi_nil]

theorem field_price (st : IStream) (str : Str) :
    (stod (if (getline st str ',').1 = true then (getline st str ',').2.1 else ['0'])).getD
        Double.zero =
      (((streamFields st).head?).bind stod).getD Double.zero := by
  obtain ⟨_, h1, h2⟩ := getline_fields st str
  cases hg : (getline st str ',').1 with
  | true => simp [h1 hg]
  | false => rcases h2 hg with h | h <;> simp [h, stod_zero, stod_nil]

theorem tail_head? (l : List Str) : l.tail.head? = l.get? 1 := by
  cases l with
  | nil => rfl
  | cons a l => cases l <;> rfl

theorem tail_get? (l : List Str) (n : Nat) : l.tail.get? n = l.get? (n + 1) := by
  cases l <;> rfl

theorem streamFields_getline (st : IStream) (str : Str) :
    streamFields (getline st str ',').2.2 = (streamFields st).tail :=
  (getline_fields st str).1

/-- The body of the read loop on a line whose id field converts, in terms of the
fields of the line. -/
theorem load_line_fields (s : State) (line : Str) (id : Int) (hl : line ≠ [])
    (h : stoi (idField line) = some id) :
    load_line s line =
      { s with
        items := s.items ++ [record_of_fields id (splitFields line)]
        next_id := if s.next_id ≤ id then wrap32 (id + 1) else s.next_id } := by
  obtain ⟨h1, h2⟩ := getline_nonempty line [] ',' hl
  unfold idField at h
  unfold load_line
  simp only [if_neg hl, h1, h2, h]
  rw [if_neg (by decide), field_name, field_qty, field_price]
  simp only [streamFields_getline, tail_head?, tail_get?]
  rfl

theorem load_line_parse (s : State) (line : Str) :
    (load_line s line).items = s.items ++ (parse_line line).toList := by
  unfold parse_line
  by_cases hl : line = []
  · subst hl
    simp [load_line_empty]
  · rw [if_neg hl]
    cases hs : stoi (idField line) with
    | none => simp [load_line_skip s line hs]
    | some id => simp [load_line_fields s line id hl hs]

theorem load_fold_items (ls : List Str) :
    ∀ s : State, (ls.foldl load_line s).items = s.items ++ ls.filterMap parse_line := by
  induction ls with
  | nil => intro s; simp
  | cons l ls ih =>
    intro s
    rw [List.foldl_cons, ih, load_line_parse]
    cases hp : parse_line l <;> simp [List.filterMap_cons, hp]

/-- The records `load_db` makes of a file, line by line. -/
theorem load_db_items (s : State) (content : Str) (h : s.file = some content) :
    (load_db s).items = (lines content).filterMap parse_line := by
  rw [load_db_file s content h, load_fold_items]
  rfl

theorem splitFields_no_comma (l : Str) : ∀ f ∈ splitFields l, ∀ c ∈ f, c ≠ ',' := by
  induction l with
  | nil =>
    intro f hf c hc
    simp only [splitFields, List.mem_singleton] at hf
    subst hf
    exact absurd hc (List.not_mem_nil c)
  | cons a l ih =>
    intro f hf c hc
    unfold splitFields at hf
    by_cases ha : a = ','
    · rw [if_pos ha] at hf
      rcases List.mem_cons.mp hf with rfl | hf
      · exact absurd hc (List.not_mem_nil c)
      · exact ih f hf c hc
    · rw [if_neg ha] at hf
      cases hs : splitFields l with
      | nil =>
        rw [hs] at hf
        simp only [List.mem_singleton] at hf
        subst hf
        simp only [List.mem_singleton] at hc
        subst hc
        exact ha
      | cons g gs =>
        rw [hs] at hf
        simp only [List.mem_cons] at hf
        rcases hf with rfl | hf
        · rcases List.mem_cons.mp hc with rfl | hc
          · exact ha
          · exact ih g (by rw [hs]; exact List.mem_cons_self _ _) c hc
        · exact ih f (by rw [hs]; exact List.mem_cons_of_mem _ hf) c hc

theorem record_of_fields_name_no_comma (id : Int) (l : Str) :
    ∀ c ∈ (record_of_fields id (splitFields l)).name, c ≠ ',' := by
  intro c hc
  unfold record_of_fields at hc
  simp only at hc
  cases hg : (splitFields l).get? 1 with
  | none => rw [hg] at hc; exact absurd hc (List.not_mem_nil c)
  | some f =>
    rw [hg] at hc
    exact splitFields_no_comma l f (List.get?_mem hg) c hc

/-- No record that `load_db` loads has a comma in its name. -/
theorem loaded_names_no_comma (s : State) (content : Str) (h : s.file = some content) :
    ∀ r ∈ (load_db s).items, ∀ c ∈ r.name, c ≠ ',' := by
  intro r hr
  rw [load_db_items s content h, List.mem_filterMap] at hr
  obtain ⟨l, _, hp⟩ := hr
  unfold parse_line at hp
  split at hp
  · exact absurd hp (by simp)
  · cases hs : stoi (idField l) with
    | none => rw [hs] at hp; exact absurd hp (by simp)
    | some id =>
      rw [hs] at hp
      simp only [Option.map_some', Option.some.injEq] at hp
      rw [← hp]
      exact record_of_fields_name_no_comma id l

theorem record_text_ne_nil (it : Item) : record_text it ≠ [] := by
  unfold record_text
  intro h
  exact showInt_ne_nil it.id (List.append_eq_nil.mp h).1

theorem idField_record_text (it : Item) : idField (record_text it) = showInt it.id := by
  unfold idField record_text
  exact (span_delim (showInt it.id) _ ',' (fun c hc => (showInt_plain _ c hc).1)).1

theorem parse_record_text (it : Item) (h : it.isInt) :
    parse_line (record_text it) = some (reload it) := by
  unfold parse_line
  rw [if_neg (record_text_ne_nil it), idField_record_text, stoi_showInt it.id h.1 h.2.1]
  rfl

/-- What `load_db` reads back from the file `save_db` wrote, record by record. -/
theorem load_saved_items (s : State) (hint : ∀ it ∈ s.items, it.isInt)
    (hnl : ∀ it ∈ s.items, ∀ c ∈ it.name, c ≠ '\n') :
    (load_db (save_db s)).items = s.items.map reload := by
  rw [load_db_items (save_db s) _ rfl, save_fold, List.nil_append, lines_saved s.items hnl]
  have : ∀ items : List Item, (∀ it ∈ items, it.isInt) →
      (items.map record_text).filterMap parse_line = items.map reload := by
    intro items
    induction items with
    | nil => intro _; rfl
    | cons it items ih =>
      intro h
      rw [List.map_cons, List.filterMap_cons, parse_record_text it (h it (List.mem_cons_self _ _)),
        ih (fun jt hj => h jt (List.mem_cons_of_mem _ hj))]
      rfl
  exact this s.items hint

/-- The fields of a saved record whose name has no comma are its four values. -/
theorem splitFields_record_text (it : Item) (hname : ∀ c ∈ it.name, c ≠ ',') :
    splitFields (record_text it) =
      [showInt it.id, it.name, showInt it.qty, showDouble it.price] := by
  unfold record_text
  rw [splitFields_comma _ _ (fun c hc => (showInt_plain _ c hc).1),
    splitFields_comma _ _ hname,
    splitFields_comma _ _ (fun c hc => (showInt_plain _ c hc).1),
    splitFields_single _ (fun c hc => (showDouble_plain _ c hc).1)]

theorem reload_plain (it : Item) (hint : it.isInt) (hname : ∀ c ∈ it.name, c ≠ ',') :
    reload it =
      { id := it.id, name := it.name, qty := it.qty
        price := (stod (showDouble it.price)).getD Double.zero } := by
  unfold reload
  rw [splitFields_record_text it hname]
  simp [record_of_fields, stoi_showInt it.qty hint.2.2.1 hint.2.2.2]

/-- The fields of a saved record whose name has a comma: the name gives two or more
of them, and the quantity and the price move to later fields. -/
theorem reload_comma (it : Item) (n1 n2 : Str) (hname : it.name = n1 ++ ',' :: n2)
    (hn1 : ∀ c ∈ n1, c ≠ ',') :
    reload it =
      record_of_fields it.id
        (showInt it.id :: n1 ::
          splitFields (n2 ++ ',' :: (showInt it.qty ++ ',' :: showDouble it.price))) := by
  unfold reload record_text
  rw [splitFields_comma _ _ (fun c hc => (showInt_plain _ c hc).1), hname, List.append_assoc,
    List.cons_append, splitFields_comma _ _ hn1]

/-! ## Facts about the states the program reaches -/

theorem wrap32_range (x : Int) : INT_MIN ≤ wrap32 x ∧ wrap32 x ≤ INT_MAX := by
  unfold wrap32 INT_MIN INT_MAX
  omega

theorem getline_no_delim (st : IStream) (str : Str) (d : Char) (h : ∀ c ∈ str, c ≠ d) :
    ∀ c ∈ (getline st str d).2.1, c ≠ d := by
  cases st with
  | none => exact h
  | some buf =>
    unfold getline
    simp only
    split
    · intro c hc
      simpa using List.mem_takeWhile_imp hc
    · rename_i hd
      split
      · intro c hc
        simp at hc
      · intro c hc
        have := List.dropWhile_eq_nil_iff.mp hd c hc
        simpa using this

theorem prompt_loop_no_newline (valid : Str → Bool) (msg : Str) (fuel : Nat) :
    ∀ (cin : IStream) (v out : Str) (r : Str × IStream × Str), (∀ c ∈ v, c ≠ '\n') →
      prompt_loop valid msg fuel cin v out = some r → ∀ c ∈ r.1, c ≠ '\n' := by
  induction fuel with
  | zero => intro cin v out r _ h; simp [prompt_loop] at h
  | succ fuel ih =>
    intro cin v out r hv h
    unfold prompt_loop at h
    by_cases hc : valid v = true
    · rw [if_pos hc] at h
      injection h with h
      rw [← h]
      exact hv
    · rw [if_neg hc] at h
      exact ih _ _ _ r (getline_no_delim _ _ _ hv) h

theorem add_item_wf {s s1 : State} (h : add_item s = Outcome.ok s1) (hw : WellFormed s) :
    WellFormed s1 := by
  unfold add_item at h
  simp only at h
  split at h
  · exact absurd h (by simp)
  · rename_i name cin1 out1 hname
    have hv := prompt_loop_no_newline _ _ _ _ _ _ _
      (getline_no_delim _ _ _ (by simp)) hname
    split at h
    · exact absurd h (by simp)
    · split at h
      · exact absurd h (by simp)
      · rename_i qty hq
        split at h
        · exact absurd h (by simp)
        · split at h
          · exact absurd h (by simp)
          · injection h with h
            subst h
            refine ⟨?_, wrap32_range _⟩
            intro jt hj
            simp only [List.mem_append, List.mem_singleton] at hj
            rcases hj with hj | rfl
            · exact hw.1 jt hj
            · exact ⟨⟨hw.2.1, hw.2.2, stoi_range hq⟩, hv⟩

theorem update_item_wf {s s1 : State} (h : update_item s = Outcome.ok s1)
    (hw : WellFormed s) : WellFormed s1 := by
  unfold update_item at h
  simp only at h
  split at h
  · injection h with h
    subst h
    exact hw
  · split at h
    · exact absurd h (by simp)
    · split at h
      · injection h with h
        subst h
        exact hw
      · rename_i i it hfind
        have hit : it ∈ s.items := List.get?_mem (find_item_by_id_some hfind).1
        split at h
        · exact absurd h (by simp)
        · rename_i qty out3 hq
          split at h
          · exact absurd h (by simp)
          · injection h with h
            subst h
            refine ⟨?_, hw.2⟩
            intro jt hj
            rcases List.mem_or_eq_of_mem_set hj with hj | hj
            · exact hw.1 jt hj
            · subst hj
              have hi := (hw.1 it hit).1
              refine ⟨⟨hi.1, hi.2.1, ?_⟩, ?_⟩
              · show INT_MIN ≤ qty ∧ qty ≤ INT_MAX
                split at hq
                · split at hq
                  · injection hq with hq
                    injection hq with hq
                    rw [← hq]
                    exact hi.2.2
                  · rcases hs : stoi (getline (getline (getline s.cin [] '\n').2.2 [] '\n').2.2
                        (getline (getline s.cin [] '\n').2.2 [] '\n').2.1 '\n').2.1 with _ | q
                    · rw [hs] at hq
                      exact absurd hq (by simp)
                    · rw [hs] at hq
                      simp only [Option.map_some', Option.some.injEq, Prod.mk.injEq] at hq
                      rw [← hq.1]
                      exact stoi_range hs
                · injection hq with hq
                  injection hq with hq
                  rw [← hq]
                  exact hi.2.2
              · simp only
                split
                · exact getline_no_delim _ _ _ (by simp)
                · exact (hw.1 it hit).2

theorem exec_wf {c : Cmd} {s s1 : State} (h : exec c s = Outcome.ok s1) (hw : WellFormed s) :
    WellFormed s1 := by
  cases c with
  | add => exact add_item_wf h hw
  | update => exact update_item_wf h hw
  | remove =>
    obtain ⟨⟨p, hi⟩, hn, _⟩ := remove_item_ok h
    refine ⟨?_, by rw [hn]; exact hw.2⟩
    intro jt hj
    rw [hi] at hj
    exact hw.1 jt (List.mem_filter.mp hj).1

theorem iterate_loop_wf (n : Nat) :
    ∀ s s1 : State, iterate_loop n s = some s1 → WellFormed s → WellFormed s1 := by
  induction n with
  | zero =>
    intro s s1 h hw
    simp only [iterate_loop, Option.some.injEq] at h
    rw [← h]
    exact hw
  | succ n ih =>
    intro s s1 h hw
    unfold iterate_loop at h
    cases hx : main_step s with
    | next s2 =>
      rw [hx] at h
      refine ih s2 s1 h ?_
      rcases main_step_cases hx with ⟨h1, h2, _⟩ | ⟨c, s0, hc, h1, h2, _⟩
      · exact ⟨by rw [h1]; exact hw.1, by rw [h2]; exact hw.2⟩
      · exact exec_wf hc ⟨by rw [h1]; exact hw.1, by rw [h2]; exact hw.2⟩
    | done s2 => rw [hx] at h; exact absurd h (by simp)
    | crash => rw [hx] at h; exact absurd h (by simp)
    | hang => rw [hx] at h; exact absurd h (by simp)

theorem lines_no_newline (t : Str) : ∀ l ∈ lines t, ∀ c ∈ l, c ≠ '\n' := by
  induction t with
  | nil => intro l hl; simp [lines] at hl
  | cons a t ih =>
    intro l hl
    unfold lines at hl
    by_cases ha : a = '\n'
    · rw [if_pos ha] at hl
      rcases List.mem_cons.mp hl with rfl | hl
      · intro c hc; simp at hc
      · exact ih l hl
    · rw [if_neg ha] at hl
      cases hs : lines t with
      | nil =>
        rw [hs] at hl
        simp only [List.mem_singleton] at hl
        subst hl
        intro c hc
        simp only [List.mem_singleton] at hc
        subst hc
        exact ha
      | cons f fs =>
        rw [hs] at hl ih
        rcases List.mem_cons.mp hl with rfl | hl
        · intro c hc
          rcases List.mem_cons.mp hc with rfl | hc
          · exact ha
          · exact ih f (List.mem_cons_self _ _) c hc
        · exact ih l (List.mem_cons_of_mem _ hl)

theorem splitFields_mem (l : Str) : ∀ f ∈ splitFields l, ∀ c ∈ f, c ∈ l := by
  induction l with
  | nil => intro f hf c hc; simp [splitFields] at hf; subst hf; simp at hc
  | cons a t ih =>
    intro f hf
    unfold splitFields at hf
    by_cases ha : a = ','
    · rw [if_pos ha] at hf
      rcases List.mem_cons.mp hf with rfl | hf
      · intro c hc; simp at hc
      · exact fun c hc => List.mem_cons_of_mem _ (ih f hf c hc)
    · rw [if_neg ha] at hf
      cases hs : splitFields t with
      | nil =>
        rw [hs] at hf
        simp only [List.mem_singleton] at hf
        subst hf
        intro c hc
        simp only [List.mem_singleton] at hc
        subst hc
        exact List.mem_cons_self _ _
      | cons g gs =>
        rw [hs] at hf ih
        rcases List.mem_cons.mp hf with rfl | hf
        · intro c hc
          rcases List.mem_cons.mp hc with rfl | hc
          · exact List.mem_cons_self _ _
          · exact List.mem_cons_of_mem _ (ih g (List.mem_cons_self _ _) c hc)
        · exact fun c hc => List.mem_cons_of_mem _ (ih f (List.mem_cons_of_mem _ hf) c hc)

theorem parse_line_wf (l : Str) (it : Item) (hl : ∀ c ∈ l, c ≠ '\n')
    (h : parse_line l = some it) : it.isInt ∧ ∀ c ∈ it.name, c ≠ '\n' := by
  unfold parse_line at h
  split at h
  · exact absurd h (by simp)
  · cases hs : stoi (idField l) with
    | none => rw [hs] at h; exact absurd h (by simp)
    | some id =>
      rw [hs] at h
      simp only [Option.map_some', Option.some.injEq] at h
      subst h
      refine ⟨⟨(stoi_range hs).1, (stoi_range hs).2, ?_⟩, ?_⟩
      · show INT_MIN ≤ (((splitFields l).get? 2).bind stoi).getD 0 ∧
          (((splitFields l).get? 2).bind stoi).getD 0 ≤ INT_MAX
        cases hq : ((splitFields l).get? 2).bind stoi with
        | none => exact ⟨by decide, by decide⟩
        | some q =>
          cases hf : (splitFields l).get? 2 with
          | none => rw [hf] at hq; exact absurd hq (by simp)
          | some f =>
            rw [hf] at hq
            exact stoi_range hq
      · show ∀ c ∈ ((splitFields l).get? 1).getD [], c ≠ '\n'
        cases hf : (splitFields l).get? 1 with
        | none => intro c hc; simp at hc
        | some f =>
          intro c hc
          exact hl c (splitFields_mem l f (List.get?_mem hf) c hc)

theorem load_line_next_range (s : State) (line : Str)
    (h : INT_MIN ≤ s.next_id ∧ s.next_id ≤ INT_MAX) :
    INT_MIN ≤ (load_line s line).next_id ∧ (load_line s line).next_id ≤ INT_MAX := by
  unfold load_line
  simp only
  split
  · exact h
  · split
    · exact h
    · split
      · exact h
      · simp only
        split
        · exact wrap32_range _
        · exact h

theorem load_fold_next_range (ls : List Str) :
    ∀ s : State, (INT_MIN ≤ s.next_id ∧ s.next_id ≤ INT_MAX) →
      INT_MIN ≤ (ls.foldl load_line s).next_id ∧ (ls.foldl load_line s).next_id ≤ INT_MAX := by
  induction ls with
  | nil => intro s h; exact h
  | cons l ls ih => intro s h; exact ih _ (load_line_next_range s l h)

theorem load_db_wf (s : State) (hw : WellFormed s) : WellFormed (load_db s) := by
  cases hf : s.file with
  | none => rw [load_db_absent s hf]; exact hw
  | some content =>
    refine ⟨?_, ?_⟩
    · rw [load_db_items s content hf]
      intro it hit
      obtain ⟨l, hl, hp⟩ := List.mem_filterMap.mp hit
      exact parse_line_wf l it (lines_no_newline content l hl) hp
    · rw [load_db_file s content hf]
      exact load_fold_next_range _ _ hw.2

/-- Every state the loop reaches is well formed, whatever the input and the file. -/
theorem reachable_wf (cin : IStream) (file : Option Str) (n : Nat) (s : State)
    (h : iterate_loop n (main_start cin file) = some s) : WellFormed s :=
  iterate_loop_wf n _ s h
    (load_db_wf (State.init cin file)
      ⟨fun it hit => absurd hit (by simp [State.init]),
        (by decide : INT_MIN ≤ (1 : Int)), (by decide : (1 : Int) ≤ INT_MAX)⟩)

/-! ## C1: the ids given out by `add` -/

/-- C1, as stated, fails when the counter reaches the largest `int`: on a store
whose `next_id` is 2147483647 two `add` commands give out 2147483647 and then
-2147483648, which is not an increase. -/
theorem assigned_ids_wrap_counterexample :
    assigned_ids 2
        { items := [], next_id := 2147483647
          cin := some "add\na\n1\n1\nadd\nb\n1\n1\n".toList, cout := [], file := none } =
        [2147483647, -2147483648] ∧
      ¬ (assigned_ids 2
        { items := [], next_id := 2147483647
          cin := some "add\na\n1\n1\nadd\nb\n1\n1\n".toList, cout := [],
          file := none }).Pairwise (fun a b => a < b) := by
  decide

/-- C1 (amended): from every store state and for every run of `n` commands of the
loop (add and remove among them) during which the counter stays within the range
of `int` (`next_id + n` is at most 2147483647), the ids given out by the successive
`add` commands are strictly increasing, so none is given out twice, whatever was
removed in between. -/
theorem assigned_ids_strictly_increasing (n : Nat) (s : State)
    (hlo : INT_MIN ≤ s.next_id) (hhi : s.next_id + n ≤ INT_MAX) :
    (assigned_ids n s).Pairwise (fun a b => a < b) :=
  (assigned_ids_increasing n s hlo hhi).1

/-- Witness for C1: on the empty store, add gives 1, remove 1, add gives 2. -/
theorem assigned_ids_strictly_increasing_witness :
    assigned_ids 3
        (State.init (some "add\nWidget\n5\n2.50\nremove\n1\nadd\nBolt\n1\n1\n".toList) none) =
        [1, 2] ∧
      (assigned_ids 3
        (State.init (some "add\nWidget\n5\n2.50\nremove\n1\nadd\nBolt\n1\n1\n".toList)
          none)).Pairwise (fun a b => a < b) :=
  ⟨by decide, assigned_ids_strictly_increasing _ _ (by decide) (by decide)⟩

/-! ## C2: saving and loading again -/

/-- C2, as stated, fails, in two ways. A price is written with six significant
digits: the record (1, Widget, 5, 1.2345678), whose name has no comma, comes back
with the price 1.23457. And a name with a line break, still without comma, is cut
at the line break, the rest of it being read as a line of its own. -/
theorem roundtrip_counterexample :
    (stod "1.2345678".toList = some (Double.fin false 5559999084043613 (-52)) ∧
      (∀ c ∈ "Widget".toList, c ≠ ',') ∧
      (load_db (save_db
        { items := [⟨1, "Widget".toList, 5, Double.fin false 5559999084043613 (-52)⟩]
          next_id := 2, cin := none, cout := [], file := none })).items =
        [⟨1, "Widget".toList, 5, Double.fin false 5560008991962793 (-52)⟩]) ∧
      ((∀ c ∈ "a\nb".toList, c ≠ ',') ∧
      (load_db (save_db
        { items := [⟨1, "a\nb".toList, 5, Double.zero⟩]
          next_id := 2, cin := none, cout := [], file := none })).items =
        [⟨1, "a".toList, 0, Double.zero⟩]) := by
  decide

/-- C2 (amended): for every collection whose names contain neither a comma nor a
line break and whose prices are given back by `std::stod` from their printed form
(six significant digits), writing it with `save_db` and reading the file with
`load_db` reproduces the collection: the same records, with the same id, name,
quantity and price, in the same order, none added and none lost. (Ids and
quantities are values of `int`.) -/
theorem save_load_roundtrip (s : State) (hint : ∀ it ∈ s.items, it.isInt)
    (hname : ∀ it ∈ s.items, ∀ c ∈ it.name, c ≠ ',' ∧ c ≠ '\n')
    (hprice : ∀ it ∈ s.items, stod (showDouble it.price) = some it.price) :
    (load_db (save_db s)).items = s.items := by
  rw [load_db_file (save_db s) _ rfl, save_fold, List.nil_append,
    lines_saved s.items (fun it hit c hc => (hname it hit c hc).2),
    load_saved_fold s.items _ hint (fun it hit c hc => (hname it hit c hc).1) hprice]
  rfl

/-- Witness for C2: two records, one of them with an empty name, a negative
quantity and the price zero. -/
theorem save_load_roundtrip_witness :
    (load_db (save_db
      { items := [⟨1, "Widget".toList, 5, Double.fin false 5629499534213120 (-51)⟩,
          ⟨-4, [], -3, Double.zero⟩]
        next_id := 2, cin := none, cout := [], file := some "9,old,1,1\n".toList })).items =
      [⟨1, "Widget".toList, 5, Double.fin false 5629499534213120 (-51)⟩,
        ⟨-4, [], -3, Double.zero⟩] :=
  save_load_roundtrip
    { items := [⟨1, "Widget".toList, 5, Double.fin false 5629499534213120 (-51)⟩,
        ⟨-4, [], -3, Double.zero⟩]
      next_id := 2, cin := none, cout := [], file := some "9,old,1,1\n".toList }
    (by decide) (by decide) (by decide)

/-! ## C3: which lines `load_db` keeps -/

/-- C3, as stated, fails: the id field `12abc` is not an integer (digits followed by
other text), yet `load_db` makes a record of its line, with id 12. -/
theorem load_trailing_text_counterexample :
    isIntegerText "12abc".toList = false ∧
      (load_db (State.init none (some "12abc,x,1,1\n7,y,2,2\n".toList))).items.map Item.id =
        [12, 7] := by
  decide

/-- C3 (amended): for every file content, `load_db` makes no record of an empty
line nor of a line whose first field `std::stoi` rejects (no digit after the
optional white space and sign, or a value outside `int`), and makes exactly one
record, in file order, of every other line, with the id `std::stoi` reads at the
start of the first field; text after that leading integer is ignored. -/
theorem load_db_ids (s : State) (content : Str) :
    (load_db { s with file := some content }).items.map Item.id =
      (lines content).filterMap (fun l => if l = [] then none else stoi (idField l)) := by
  rw [load_db_file _ content rfl]
  have h := (load_fold (lines content) { { s with file := some content } with items := [] }).1
  simpa [loaded_ids] using h

/-! ## C4: the id of the first `add` after loading -/

/-- C4, as stated, fails for a negative largest id: the file holds the single id
-5, and the next `add` gives out 1, not -4. -/
theorem add_after_negative_id_counterexample :
    (load_db (State.init (some "a\n1\n1\n".toList) (some "-5,x,1,1\n".toList))).items.map
        Item.id = [-5] ∧
      ∃ s1, add_item (main_start (some "a\n1\n1\n".toList) (some "-5,x,1,1\n".toList)) =
          Outcome.ok s1 ∧ s1.items.map Item.id = [-5, 1] :=
  ⟨by decide, _, rfl, by decide⟩

/-- C4 (amended): for every file, an `add` that returns while the collection and
the counter are as `load_db` left them appends one record; its id is 1 when the file
is absent or yields no record, and when `k` is the largest loaded id it is `k + 1`
if `0 ≤ k < 2147483647` and 1 if `k` is negative. -/
theorem next_add_after_load (cin : IStream) (file : Option Str) (s s1 : State)
    (hitems : s.items = (load_db (State.init cin file)).items)
    (hnext : s.next_id = (load_db (State.init cin file)).next_id)
    (hadd : add_item s = Outcome.ok s1) :
    ∃ it, s1.items = (load_db (State.init cin file)).items ++ [it] ∧
      ((load_db (State.init cin file)).items = [] → it.id = 1) ∧
      ∀ k, (∃ r ∈ (load_db (State.init cin file)).items, r.id = k) →
        (∀ r ∈ (load_db (State.init cin file)).items, r.id ≤ k) → k < INT_MAX →
        it.id = if 0 ≤ k then k + 1 else 1 := by
  obtain ⟨name, qty, price, hi, _, _⟩ := add_item_ok hadd
  rw [hitems, hnext] at hi
  refine ⟨_, hi, ?_, ?_⟩
  · intro hnil
    obtain ⟨h1, _, h3⟩ := load_db_next_id cin file (by rw [hnil]; simp)
    rcases h3 with h3 | ⟨i, hi3, _⟩
    · exact h3
    · rw [hnil] at hi3
      simp at hi3
  · intro k ⟨r, hr, hrk⟩ hle hk
    obtain ⟨h1, h2, h3⟩ := load_db_next_id cin file
      (fun it hit => lt_of_le_of_lt (hle it hit) hk)
    have hk2 := h2 k (List.mem_map.mpr ⟨r, hr, hrk⟩)
    show (load_db (State.init cin file)).next_id = _
    rcases h3 with h3 | ⟨i, hi3, h3⟩
    · split <;> omega
    · obtain ⟨r2, hr2, rfl⟩ := List.mem_map.mp hi3
      have := hle r2 hr2
      split <;> omega

/-- Witness for C4: the largest id in the file is 7 and the next `add` gives out 8. -/
theorem next_add_after_load_witness :
    ∃ it,
      [(⟨7, "a".toList, 1, Double.fin false 4503599627370496 (-51)⟩ : Item),
          ⟨3, "b".toList, 0, Double.zero⟩,
          ⟨8, "W".toList, 5, Double.fin false 4503599627370496 (-52)⟩] =
        (load_db (State.init (some "W\n5\n1\n".toList) (some "7,a,1,2\n3,b,x,y\n".toList))).items ++
          [it] ∧
      ((load_db (State.init (some "W\n5\n1\n".toList) (some "7,a,1,2\n3,b,x,y\n".toList))).items =
          [] → it.id = 1) ∧
      ∀ k,
        (∃ r ∈ (load_db
            (State.init (some "W\n5\n1\n".toList) (some "7,a,1,2\n3,b,x,y\n".toList))).items,
          r.id = k) →
        (∀ r ∈ (load_db
            (State.init (some "W\n5\n1\n".toList) (some "7,a,1,2\n3,b,x,y\n".toList))).items,
          r.id ≤ k) →
        k < INT_MAX → it.id = if 0 ≤ k then k + 1 else 1 :=
  next_add_after_load (some "W\n5\n1\n".toList) (some "7,a,1,2\n3,b,x,y\n".toList)
    (main_start (some "W\n5\n1\n".toList) (some "7,a,1,2\n3,b,x,y\n".toList))
    { items := [⟨7, "a".toList, 1, Double.fin false 4503599627370496 (-51)⟩,
        ⟨3, "b".toList, 0, Double.zero⟩,
        ⟨8, "W".toList, 5, Double.fin false 4503599627370496 (-52)⟩]
      next_id := 9
      cin := some []
      cout := ("Inventory Manager\nType 'help' for commands.\n" ++
        "Enter name: Enter quantity: Enter price: Added item id 8.\n").toList
      file := some "7,a,1,2\n3,b,x,y\n".toList }
    rfl rfl (by decide)

/-! ## C5: validated input that cannot be converted -/

set_option maxRecDepth 20000 in
set_option exponentiation.threshold 2000 in
/-- C5 fails on the code: `is_number` accepts `.5`, `inf` and `1e310`, but
`std::stoi` throws on the first two and `std::stod` on the third, and nothing
catches the exception, so `add` at its quantity prompt, `update` and `remove` at
their id prompt, and `add` at its price prompt end the process instead of reporting
the text as invalid. -/
theorem accepted_text_crashes :
    (is_number ".5".toList = true ∧ stoi ".5".toList = none) ∧
      (is_number "inf".toList = true ∧ stoi "inf".toList = none) ∧
      (is_number "1e310".toList = true ∧ stod "1e310".toList = none) ∧
      add_item (State.init (some "Widget\n.5\n1\n".toList) none) = Outcome.crash ∧
      update_item (State.init (some "inf\n".toList) none) = Outcome.crash ∧
      remove_item (State.init (some "inf\n".toList) none) = Outcome.crash ∧
      add_item (State.init (some "Widget\n5\n1e310\n".toList) none) = Outcome.crash := by
  decide

/-! ## C6: uniqueness of ids -/

/-- C6, as stated, fails: a file with two lines of id 1 loads two records with the
same id. -/
theorem duplicate_ids_counterexample :
    (load_db (State.init none (some "1,a,1,1\n1,b,2,2\n".toList))).items.map Item.id = [1, 1] ∧
      ¬ ((load_db (State.init none (some "1,a,1,1\n1,b,2,2\n".toList))).items.map
        Item.id).Nodup := by
  decide

/-- C6 (amended): when the records `load_db` loads have pairwise different ids, none
of them 2147483647, and the counter stays within `int` (the counter after loading plus
the number `n` of commands is at most 2147483647), then after every run of `n`
commands of the loop (add, update and remove among them) no two records of the
collection have the same id. -/
theorem ids_unique_in_loop (cin : IStream) (file : Option Str) (n : Nat) (s : State)
    (hnd : ((load_db (State.init cin file)).items.map Item.id).Nodup)
    (hmax : ∀ it ∈ (load_db (State.init cin file)).items, it.id < INT_MAX)
    (hb : (load_db (State.init cin file)).next_id + n ≤ INT_MAX)
    (hrun : iterate_loop n (main_start cin file) = some s) :
    (s.items.map Item.id).Nodup :=
  (iterate_loop_preserves n _ s (main_start_inv cin file hmax) hb hrun).2.2.2 hnd

set_option maxRecDepth 20000 in
/-- Witness for C6: ids 7 and 3 are loaded, then a record is added, 7 is updated and
3 is removed, which leaves the ids 7 and 8. -/
theorem ids_unique_in_loop_witness :
    ∃ s,
      iterate_loop 3
          (main_start (some "add\nW\n5\n1\nupdate\n7\n\n4\n\nremove\n3\n".toList)
            (some "7,a,1,2\n3,b,x,y\n".toList)) = some s ∧
        s.items.map Item.id = [7, 8] ∧ (s.items.map Item.id).Nodup :=
  ⟨_, rfl, by decide,
    ids_unique_in_loop (some "add\nW\n5\n1\nupdate\n7\n\n4\n\nremove\n3\n".toList)
      (some "7,a,1,2\n3,b,x,y\n".toList) 3 _ (by decide) (by decide) (by decide) rfl⟩

/-! ## C7: the counter is above every id -/

/-- C7, as stated, fails when the file holds the largest `int`: after loading the
id 2147483647 the counter is -2147483648, which is not above it. -/
theorem counter_wrap_counterexample :
    (load_db (State.init none (some "2147483647,a,1,1\n".toList))).items.map Item.id =
        [2147483647] ∧
      (load_db (State.init none (some "2147483647,a,1,1\n".toList))).next_id = -2147483648 := by
  decide

/-- C7 (amended): when no loaded id is 2147483647 and the counter stays within `int`
(the counter after loading plus the number of commands is at most 2147483647), then
in every state the loop reaches from `load_db` (by add, update, remove and the other
commands) the next-id counter is strictly greater than the id of every record in
the collection, and of every record that was in it in an earlier state. -/
theorem counter_above_ids (cin : IStream) (file : Option Str) (n m : Nat) (s1 s2 : State)
    (hmax : ∀ it ∈ (load_db (State.init cin file)).items, it.id < INT_MAX)
    (hb : (load_db (State.init cin file)).next_id + (n + m) ≤ INT_MAX)
    (hrun1 : iterate_loop n (main_start cin file) = some s1)
    (hrun2 : iterate_loop m s1 = some s2) :
    ∀ it ∈ s1.items, it.id < s2.next_id := by
  have e : (main_start cin file).next_id = (load_db (State.init cin file)).next_id := rfl
  obtain ⟨hinv1, _, h2, _⟩ :=
    iterate_loop_preserves n _ s1 (main_start_inv cin file hmax) (by omega) hrun1
  obtain ⟨_, h3, _, _⟩ := iterate_loop_preserves m s1 s2 hinv1 (by omega) hrun2
  intro it hit
  have := hinv1.1 it.id (List.mem_map.mpr ⟨it, hit, rfl⟩)
  omega

set_option maxRecDepth 20000 in
/-- Witness for C7: ids 7 and 3 are loaded and a record is added, which gets id 8;
after 7 is updated and 3 is removed the counter, 9, is still above 7, 3 and 8. -/
theorem counter_above_ids_witness :
    ∃ s1 s2,
      iterate_loop 1
          (main_start (some "add\nW\n5\n1\nupdate\n7\n\n4\n\nremove\n3\n".toList)
            (some "7,a,1,2\n3,b,x,y\n".toList)) = some s1 ∧
        iterate_loop 2 s1 = some s2 ∧ s1.items.map Item.id = [7, 3, 8] ∧ s2.next_id = 9 ∧
        s2.items.map Item.id = [7, 8] ∧ s1.items.all (fun it => decide (it.id < s2.next_id)) :=
  ⟨_, _, rfl, rfl, by decide, by decide, by decide,
    List.all_eq_true.mpr (fun it hit => decide_eq_true
      (counter_above_ids (some "add\nW\n5\n1\nupdate\n7\n\n4\n\nremove\n3\n".toList)
        (some "7,a,1,2\n3,b,x,y\n".toList) 1 2 _ _ (by decide) (by decide) rfl rfl it hit))⟩

/-! ## C8: removing an id that no record carries -/

/-- C8: for every store and every id that no record carries (entered as a text that
`is_number` accepts and `std::stoi` converts to that id), `remove` returns, prints
`Item not found.` after its prompt, and leaves the collection as it was: the same
records in the same order; the counter and the file are untouched as well. -/
theorem remove_absent_id_not_found (s : State) (id : Int)
    (hnum : is_number (getline s.cin [] '\n').2.1 = true)
    (hid : stoi (getline s.cin [] '\n').2.1 = some id)
    (habs : ∀ it ∈ s.items, it.id ≠ id) :
    remove_item s = Outcome.ok
      { items := s.items
        next_id := s.next_id
        cin := (getline s.cin [] '\n').2.2
        cout := s.cout ++ "Enter item id to remove: ".toList ++ "Item not found.\n".toList
        file := s.file } := by
  have hf : s.items.filter (fun x => decide (x.id ≠ id)) = s.items :=
    List.filter_eq_self.mpr (fun a ha => by simpa using habs a ha)
  unfold remove_item
  simp only [hnum, hid, hf]
  simp

/-- Witness for C8: the store holds ids 1 and 2 and the operator asks to remove 7. -/
theorem remove_absent_id_not_found_witness :
    remove_item
        { items := [⟨1, "Widget".toList, 5, Double.zero⟩, ⟨2, "Bolt".toList, 1, Double.zero⟩]
          next_id := 3, cin := some "7\nlist\n".toList, cout := [], file := none } =
      Outcome.ok
        { items := [⟨1, "Widget".toList, 5, Double.zero⟩, ⟨2, "Bolt".toList, 1, Double.zero⟩]
          next_id := 3
          cin := some "list\n".toList
          cout := "Enter item id to remove: ".toList ++ "Item not found.\n".toList
          file := none } :=
  remove_absent_id_not_found
    { items := [⟨1, "Widget".toList, 5, Double.zero⟩, ⟨2, "Bolt".toList, 1, Double.zero⟩]
      next_id := 3, cin := some "7\nlist\n".toList, cout := [], file := none }
    7 (by decide) (by decide) (by decide)

/-! ## C9: the validity check -/

/-- C9, as stated, fails. The text `2.5` is not an integer, yet the check accepts
it and `add` takes it as a quantity (the record gets quantity 2). And the check
does not trim: `2.5 ` with a trailing blank is a floating constant once trimmed, yet
the check rejects it. -/
theorem fraction_quantity_counterexample :
    (isIntegerText (trim "2.5".toList) = false ∧ is_number "2.5".toList = true ∧
      add_item (State.init (some "Widget\n2.5\n1\n".toList) none) =
        Outcome.ok
          { items := [⟨1, "Widget".toList, 2, Double.fin false 4503599627370496 (-52)⟩]
            next_id := 2
            cin := some []
            cout := "Enter name: Enter quantity: Enter price: Added item id 1.\n".toList
            file := none }) ∧
      (FloatText (trim "2.5 ".toList) ∧ is_number "2.5 ".toList = false) :=
  ⟨by decide, (strtod_scan_iff _).mp ⟨false, FloatLit.dec ['2'] ['5'] 0, by decide⟩, by decide⟩

/-- C9 (amended): the validity check is the same for an id, a quantity and a
price, and trims nothing: `is_number` accepts a text exactly when it is non-empty
and its C string (the part before a NUL byte, if there is one) is consumed entirely
by a floating-point parse, that is, consists of optional leading white space, an
optional sign, and an infinity, a NaN, a hexadecimal or a decimal floating constant
with nothing after it, or is empty (the text starts with a NUL byte). So `2.5` and
`1e3` are valid quantities and ids, and trailing white space makes a text invalid. -/
theorem is_number_iff (s : Str) :
    is_number s = true ↔ s ≠ [] ∧ (c_str s = [] ∨ FloatText (c_str s)) := by
  unfold is_number
  by_cases hs : s = []
  · simp [hs]
  · rw [if_neg hs]
    have hA := strtod_scan_iff (c_str s)
    cases h : strtod_scan (c_str s) with
    | none =>
      simp only [decide_eq_true_eq]
      constructor
      · intro h0; exact ⟨hs, Or.inl h0⟩
      · rintro ⟨_, h0 | h0⟩
        · exact h0
        · obtain ⟨neg, l, h1⟩ := hA.mpr h0
          rw [h] at h1
          exact absurd h1 (by simp)
    | some r =>
      obtain ⟨neg, l, rest⟩ := r
      simp only [decide_eq_true_eq]
      constructor
      · intro h0
        subst h0
        exact ⟨hs, Or.inr (hA.mp ⟨neg, l, h⟩)⟩
      · rintro ⟨_, h0 | h0⟩
        · rw [h0, strtod_scan_nil] at h
          exact absurd h (by simp)
        · obtain ⟨neg2, l2, h1⟩ := hA.mpr h0
          rw [h] at h1
          injection h1 with h1
          injection h1 with _ h1
          injection h1 with _ h1

/-! ## C10: command dispatch -/

/-- C10, as stated, fails: the line ` list` (with a leading blank) is `list` once
trimmed, yet the loop does not run `list` on it; it reports an unknown command. -/
theorem dispatch_untrimmed_counterexample :
    trim " list".toList = "list".toList ∧
      main_step
          { items := [⟨1, "Widget".toList, 5, Double.zero⟩], next_id := 2
            cin := some " list\n".toList, cout := [], file := none } =
        Step.next
          { items := [⟨1, "Widget".toList, 5, Double.zero⟩], next_id := 2
            cin := some []
            cout := "> ".toList ++ "Unknown command. Type 'help' for commands.\n".toList
            file := none } := by
  decide

/-- C10 (amended): for every input line, taken as read with no trimming, the loop
runs a command exactly when the line is equal, case-sensitively, to one of the eight
command words, and then it is that command; an empty line only prints the prompt;
every other line prints the prompt and `Unknown command.` and changes neither the
collection, nor the counter, nor the file. -/
theorem main_step_dispatch (s : State) (line : Str) (cin1 : IStream)
    (hg : getline s.cin [] '\n' = (true, line, cin1)) :
    (line = "list".toList →
        main_step s = Step.next (list_items { s with cin := cin1, cout := s.cout ++ "> ".toList })) ∧
      (line = "add".toList →
        main_step s =
          Step.ofOutcome (add_item { s with cin := cin1, cout := s.cout ++ "> ".toList })) ∧
      (line = "update".toList →
        main_step s =
          Step.ofOutcome (update_item { s with cin := cin1, cout := s.cout ++ "> ".toList })) ∧
      (line = "remove".toList →
        main_step s =
          Step.ofOutcome (remove_item { s with cin := cin1, cout := s.cout ++ "> ".toList })) ∧
      (line = "search".toList →
        main_step s =
          Step.next (search_items { s with cin := cin1, cout := s.cout ++ "> ".toList })) ∧
      (line = "save".toList →
        main_step s =
          Step.next
            { save_db { s with cin := cin1, cout := s.cout ++ "> ".toList } with
              cout := s.cout ++ "> ".toList ++ "Saved.\n".toList }) ∧
      (line = "help".toList →
        main_step s = Step.next (print_help { s with cin := cin1, cout := s.cout ++ "> ".toList })) ∧
      (line = "quit".toList →
        main_step s =
          Step.done
            { save_db { s with cin := cin1, cout := s.cout ++ "> ".toList } with
              cout := s.cout ++ "> ".toList ++ "Goodbye.\n".toList }) ∧
      (line = [] → main_step s = Step.next { s with cin := cin1, cout := s.cout ++ "> ".toList }) ∧
      (line ∉ commands → line ≠ [] →
        main_step s =
          Step.next
            { items := s.items
              next_id := s.next_id
              cin := cin1
              cout := s.cout ++ "> ".toList ++
                "Unknown command. Type 'help' for commands.\n".toList
              file := s.file }) := by
  unfold main_step
  simp only [hg]
  refine ⟨?_, ?_, ?_, ?_, ?_, ?_, ?_, ?_, ?_, ?_⟩
  · intro h; subst h; rfl
  · intro h; subst h; rfl
  · intro h; subst h; rfl
  · intro h; subst h; rfl
  · intro h; subst h; rfl
  · intro h; subst h; rfl
  · intro h; subst h; rfl
  · intro h; subst h; rfl
  · intro h; subst h; rfl
  · intro h hne
    simp only [commands, List.mem_cons, List.mem_singleton, List.not_mem_nil, or_false,
      not_or] at h
    obtain ⟨h1, h2, h3, h4, h5, h6, h7, h8⟩ := h
    rw [if_neg h1, if_neg h2, if_neg h3, if_neg h4, if_neg h5, if_neg h6, if_neg h7, if_neg h8,
      if_neg hne]
    simp

/-- Witness for C10: the line `List` is none of the command words. -/
theorem main_step_dispatch_witness :
    main_step
        { items := [⟨1, "Widget".toList, 5, Double.zero⟩], next_id := 2
          cin := some "List\nquit\n".toList, cout := [], file := none } =
      Step.next
        { items := [⟨1, "Widget".toList, 5, Double.zero⟩], next_id := 2
          cin := some "quit\n".toList
          cout := "> ".toList ++ "Unknown command. Type 'help' for commands.\n".toList
          file := none } :=
  (main_step_dispatch
    { items := [⟨1, "Widget".toList, 5, Double.zero⟩], next_id := 2
      cin := some "List\nquit\n".toList, cout := [], file := none }
    "List".toList (some "quit\n".toList) (by decide)).2.2.2.2.2.2.2.2.2 (by decide) (by decide)

/-! ## C11: what `update` changes -/

/-- C11, as stated, fails. On the record (1, Widget, 5, 2.5) the reply `2.5` at the
quantity prompt, which is not an integer, does not leave the quantity at 5: the
record becomes (1, Widget, 2, 2.5). And the reply `.5` at the quantity prompt, which
the check accepts, replaces nothing: `std::stoi` throws and the process ends. -/
theorem update_fraction_counterexample :
    (isIntegerText "2.5".toList = false ∧
      ∃ out, update_item
          { items := [⟨1, "Widget".toList, 5, Double.fin false 5629499534213120 (-51)⟩]
            next_id := 2, cin := some "1\n\n2.5\n\n".toList, cout := [], file := none } =
        Outcome.ok
          { items := [⟨1, "Widget".toList, 2, Double.fin false 5629499534213120 (-51)⟩]
            next_id := 2, cin := some [], cout := out, file := none }) ∧
      update_item
          { items := [⟨1, "Widget".toList, 5, Double.fin false 5629499534213120 (-51)⟩]
            next_id := 2, cin := some "1\n\n.5\n\n".toList, cout := [], file := none } =
        Outcome.crash :=
  ⟨⟨by decide, _, rfl⟩, by decide⟩

/-- C11 (amended): `update` changes only the fields answered with a reply the code
takes as valid. For every store whose input holds the id of a record (the first one
carrying it) and then three reply lines, the command ends normally and leaves the
collection with that record alone replaced, every other record, the order, the
counter and the file unchanged. The id is kept. The name is kept for a blank reply
and is the reply otherwise. The quantity is kept for a blank reply and for a reply
that `is_number` rejects; otherwise, when `std::stoi` converts the reply, it is the
integer `std::stoi` reads at its start (so `2.5` gives 2). The price is kept for a
blank reply and for a reply that `is_number` rejects, and is otherwise the value
`std::stod` reads. -/
theorem update_item_frame (s : State) (t rn rq rp rest : Str) (id : Int) (i : Nat) (it : Item)
    (q : Int) (p : Double)
    (hcin : s.cin = some (t ++ '\n' :: (rn ++ '\n' :: (rq ++ '\n' :: (rp ++ '\n' :: rest)))))
    (ht : ∀ c ∈ t, c ≠ '\n') (hrn : ∀ c ∈ rn, c ≠ '\n') (hrq : ∀ c ∈ rq, c ≠ '\n')
    (hrp : ∀ c ∈ rp, c ≠ '\n')
    (hnum : is_number t = true) (hid : stoi t = some id)
    (hfind : find_item_by_id s.items id = some (i, it))
    (hq : rq ≠ [] → is_number rq = true → stoi rq = some q)
    (hp : rp ≠ [] → is_number rp = true → stod rp = some p) :
    s.items.get? i = some it ∧ it.id = id ∧
      ∃ out, update_item s = Outcome.ok
        { items := s.items.set i
            { id := it.id
              name := if rn = [] then it.name else rn
              qty := if rq ≠ [] ∧ is_number rq = true then q else it.qty
              price := if rp ≠ [] ∧ is_number rp = true then p else it.price }
          next_id := s.next_id
          cin := some rest
          cout := out
          file := s.file } := by
  refine ⟨(find_item_by_id_some hfind).1, (find_item_by_id_some hfind).2, ?_⟩
  have g0 := getline_delim t (rn ++ '\n' :: (rq ++ '\n' :: (rp ++ '\n' :: rest))) [] '\n' ht
  have g1 := getline_delim rn (rq ++ '\n' :: (rp ++ '\n' :: rest)) [] '\n' hrn
  have g2 := getline_delim rq (rp ++ '\n' :: rest) rn '\n' hrq
  have g3 := getline_delim rp rest rq '\n' hrp
  have hrqv : ∀ o1 o2 : Str,
      (if rq ≠ [] then
          if is_number rq = false then some (it.qty, o1)
          else Option.map (fun q => (q, o2)) (stoi rq)
        else some (it.qty, o2)) =
        some (if rq ≠ [] ∧ is_number rq = true then q else it.qty,
          if rq ≠ [] ∧ is_number rq = false then o1 else o2) := by
    intro o1 o2
    by_cases hq0 : rq = []
    · rw [if_neg (not_not.mpr hq0), if_neg (fun h => h.1 hq0), if_neg (fun h => h.1 hq0)]
    · by_cases hqn : is_number rq = true
      · rw [if_pos hq0, if_neg (by rw [hqn]; decide), hq hq0 hqn, if_pos ⟨hq0, hqn⟩,
          if_neg (fun h => by rw [hqn] at h; exact absurd h.2 (by decide))]
        rfl
      · have hqf : is_number rq = false := by simpa using hqn
        rw [if_pos hq0, if_pos hqf, if_neg (fun h => hqn h.2), if_pos ⟨hq0, hqf⟩]
  have hrpv : ∀ o1 o2 : Str,
      (if rp ≠ [] then
          if is_number rp = false then some (it.price, o1)
          else Option.map (fun p => (p, o2)) (stod rp)
        else some (it.price, o2)) =
        some (if rp ≠ [] ∧ is_number rp = true then p else it.price,
          if rp ≠ [] ∧ is_number rp = false then o1 else o2) := by
    intro o1 o2
    by_cases hp0 : rp = []
    · rw [if_neg (not_not.mpr hp0), if_neg (fun h => h.1 hp0), if_neg (fun h => h.1 hp0)]
    · by_cases hpn : is_number rp = true
      · rw [if_pos hp0, if_neg (by rw [hpn]; decide), hp hp0 hpn, if_pos ⟨hp0, hpn⟩,
          if_neg (fun h => by rw [hpn] at h; exact absurd h.2 (by decide))]
        rfl
      · have hpf : is_number rp = false := by simpa using hpn
        rw [if_pos hp0, if_pos hpf, if_neg (fun h => hpn h.2), if_pos ⟨hp0, hpf⟩]
  unfold update_item
  simp only [hcin, g0, g1, g2, g3, hnum, hid, hfind, hrqv, hrpv, Bool.true_eq_false, if_false,
    ite_not]
  exact ⟨_, rfl⟩

/-- Witness for C11: blank name, blank quantity and the price `3.75` on the record
(1, Widget, 5, 2.5) give (1, Widget, 5, 3.75). -/
theorem update_item_frame_witness :
    [(⟨1, "Widget".toList, 5, Double.fin false 5629499534213120 (-51)⟩ : Item)].get? 0 =
        some ⟨1, "Widget".toList, 5, Double.fin false 5629499534213120 (-51)⟩ ∧
      (⟨1, "Widget".toList, 5, Double.fin false 5629499534213120 (-51)⟩ : Item).id = 1 ∧
      ∃ out, update_item
          { items := [⟨1, "Widget".toList, 5, Double.fin false 5629499534213120 (-51)⟩]
            next_id := 2, cin := some "1\n\n\n3.75\nlist\n".toList, cout := [], file := none } =
        Outcome.ok
          { items := [⟨1, "Widget".toList, 5, Double.fin false 8444249301319680 (-51)⟩]
            next_id := 2, cin := some "list\n".toList, cout := out, file := none } :=
  update_item_frame
    { items := [⟨1, "Widget".toList, 5, Double.fin false 5629499534213120 (-51)⟩]
      next_id := 2, cin := some "1\n\n\n3.75\nlist\n".toList, cout := [], file := none }
    "1".toList [] [] "3.75".toList "list\n".toList 1 0
    ⟨1, "Widget".toList, 5, Double.fin false 5629499534213120 (-51)⟩ 0
    (Double.fin false 8444249301319680 (-51))
    rfl (by decide) (by decide) (by decide) (by decide) (by decide) (by decide) (by decide)
    (by decide) (by decide)

/-! ## C12: the defaults of `load_db` -/

/-- C12, as stated, fails for digits followed by other text: the quantity field
`12abc` gives the quantity 12, not 0, and the price field `1.5xyz` gives the price
1.5, not 0.0. -/
theorem load_prefix_fields_counterexample :
    isIntegerText "12abc".toList = false ∧
      (load_db (State.init none (some "1,a,12abc,1.5xyz\n".toList))).items =
        [⟨1, "a".toList, 12, Double.fin false 6755399441055744 (-52)⟩] := by
  decide

/-- C12 (amended): for every file content, `load_db` makes of every line whose id
field parses the record whose name is the second comma-separated field, or empty
when that field is missing; whose quantity is what `std::stoi` makes of the third
field, or 0 when the field is missing or `std::stoi` rejects it (empty, no leading
integer, out of range); and whose price is what `std::stod` makes of the fourth
field, or 0.0 when the field is missing or `std::stod` rejects it. Each field is
defaulted independently of the others. A field of digits followed by other text is
not defaulted: its leading number is taken. -/
theorem load_db_records (s : State) (content : Str) :
    (load_db { s with file := some content }).items =
      (lines content).filterMap
        (fun l =>
          if l = [] then none
          else (stoi (idField l)).map (fun id =>
            { id := id
              name := ((splitFields l).get? 1).getD []
              qty := (((splitFields l).get? 2).bind stoi).getD 0
              price := (((splitFields l).get? 3).bind stod).getD Double.zero })) :=
  load_db_items _ content rfl

/-! ## C13: `search` -/

/-- C13: for every store and every non-empty search term (the line read at the
prompt), `search` prints, after its prompt, the table header and one row for each
record whose name holds the term as a contiguous block of characters (compared
character by character, so case-sensitively), each once and in collection order,
and prints `No matches.` instead exactly when there is no such record; for the
empty term it prints `Empty search.` and no row. The collection, the counter and
the file are unchanged in every case. -/
theorem search_items_spec (s : State) :
    search_items s =
      { items := s.items
        next_id := s.next_id
        cin := (getline s.cin [] '\n').2.2
        cout := s.cout ++ "Enter search term (name substring): ".toList ++
          (if (getline s.cin [] '\n').2.1 = [] then "Empty search.\n".toList
            else if matching s.items (getline s.cin [] '\n').2.1 = [] then "No matches.\n".toList
            else "ID\tName\tQty\tPrice\n".toList ++ "--------------------------------\n".toList ++
              ((matching s.items (getline s.cin [] '\n').2.1).map search_row).flatten)
        file := s.file } := by
  unfold search_items
  simp only
  by_cases ht : (getline s.cin [] '\n').2.1 = []
  · rw [if_pos ht, if_pos ht]
  · rw [if_neg ht, if_neg ht, search_fold]
    by_cases hn : matching s.items (getline s.cin [] '\n').2.1 = []
    · simp [hn]
    · simp [hn, List.append_assoc]

/-! ## C14: the end of the input -/

/-- C14 fails on the code: when the input ends inside `add`, at the name prompt or
at the quantity prompt, the loop does not stop; `add` stays in its prompt loop, which
on a closed stream never leaves, however many times its condition is tested. When
the input ends inside `update`, the command returns and the loop stops without
saving. -/
theorem add_at_end_of_input_hangs :
    main (some "add\n".toList) none = some Step.hang ∧
      main (some "add\nWidget\n".toList) none = some Step.hang ∧
      (∀ fuel out,
        prompt_loop (fun n => decide (n ≠ [])) "Name cannot be empty. Enter name: ".toList fuel
          none [] out = none) ∧
      (∀ fuel out,
        prompt_loop is_number "Invalid number. Enter quantity: ".toList fuel none [] out =
          none) ∧
      ∃ s, main (some "update\n".toList) none = some (Step.done s) ∧ s.file = none :=
  ⟨by decide, by decide, fun fuel out => prompt_loop_stuck _ _ [] (by decide) fuel out,
    fun fuel out => prompt_loop_stuck _ _ [] (by decide) fuel out, _, rfl, rfl⟩

/-! ## C15: names are not empty -/

/-- C15, as stated, fails: a line with an empty name field loads a record with an
empty name. -/
theorem empty_name_counterexample :
    (load_db (State.init none (some "1,,5,2\n".toList))).items =
      [⟨1, [], 5, Double.fin false 4503599627370496 (-51)⟩] := by
  decide

/-- C15 (amended): when every record `load_db` loads has a non-empty name, then in
every state the loop reaches (by add, update, remove and the other commands) every
record of the collection has a non-empty name: `add` asks until the name is not
empty and `update` keeps the name on a blank reply. -/
theorem names_nonempty_in_loop (cin : IStream) (file : Option Str) (n : Nat) (s : State)
    (hload : ∀ it ∈ (load_db (State.init cin file)).items, it.name ≠ [])
    (hrun : iterate_loop n (main_start cin file) = some s) :
    ∀ it ∈ s.items, it.name ≠ [] :=
  iterate_loop_names n _ s hrun hload

set_option maxRecDepth 20000 in
/-- Witness for C15: two named records are loaded, one is added after an empty
reply to the name prompt, one is updated with a blank name. -/
theorem names_nonempty_in_loop_witness :
    ∃ s,
      iterate_loop 2
          (main_start (some "add\n\nW\n5\n1\nupdate\n7\n\n4\n\n".toList)
            (some "7,a,1,2\n3,b,x,y\n".toList)) = some s ∧
        s.items.map Item.name = ["a".toList, "b".toList, "W".toList] ∧
        s.items.all (fun it => decide (it.name ≠ [])) = true :=
  ⟨_, rfl, by decide,
    List.all_eq_true.mpr (fun it hit => decide_eq_true
      (names_nonempty_in_loop (some "add\n\nW\n5\n1\nupdate\n7\n\n4\n\n".toList)
        (some "7,a,1,2\n3,b,x,y\n".toList) 2 _ (by decide) rfl it hit))⟩

/-! ## C16: a comma in a name -/

/-- C16: a record whose name contains a comma is not reproduced by `save_db`
followed by `load_db`. For every collection (ids and quantities being values of
`int` and names holding no line break, as every name the program reads does), the
file is read back record by record; no record with a comma in its name is among the
records read back; and when the name is `n1,n2` with no comma in `n1`, the record
read back at its place has the same id, the name `n1`, the quantity read from the
first field of `n2,quantity,price` and the price read from the second one; so for
`n2` without comma the quantity is read from `n2` and the price from the text of the
quantity. -/
theorem comma_name_not_reproduced (s : State) (hint : ∀ it ∈ s.items, it.isInt)
    (hnl : ∀ it ∈ s.items, ∀ c ∈ it.name, c ≠ '\n') :
    (load_db (save_db s)).items = s.items.map reload ∧
      (∀ it ∈ s.items, ',' ∈ it.name → it ∉ (load_db (save_db s)).items) ∧
      ∀ it ∈ s.items, ∀ n1 n2 : Str, it.name = n1 ++ ',' :: n2 → (∀ c ∈ n1, c ≠ ',') →
        (reload it).id = it.id ∧ (reload it).name = n1 ∧ (reload it).name ≠ it.name ∧
          (reload it).qty =
            (((splitFields (n2 ++ ',' :: (showInt it.qty ++ ',' :: showDouble it.price))).get?
              0).bind stoi).getD 0 ∧
          (reload it).price =
            (((splitFields (n2 ++ ',' :: (showInt it.qty ++ ',' :: showDouble it.price))).get?
              1).bind stod).getD Double.zero ∧
          ((∀ c ∈ n2, c ≠ ',') →
            (reload it).qty = (stoi n2).getD 0 ∧
              (reload it).price = (stod (showInt it.qty)).getD Double.zero) := by
  refine ⟨load_saved_items s hint hnl, ?_, ?_⟩
  · intro it _ hc hmem
    exact loaded_names_no_comma (save_db s) _ rfl it hmem ',' hc rfl
  · intro it _ n1 n2 hname hn1
    have hr := reload_comma it n1 n2 hname hn1
    refine ⟨by rw [hr]; rfl, by rw [hr]; rfl, ?_, by rw [hr]; rfl, by rw [hr]; rfl, ?_⟩
    · rw [hr, hname]
      show n1 ≠ n1 ++ ',' :: n2
      intro h
      have := congrArg List.length h
      simp at this
    · intro hn2
      rw [hr, splitFields_comma n2 _ hn2,
        splitFields_comma _ _ (fun c hc => (showInt_plain _ c hc).1)]
      exact ⟨rfl, rfl⟩

/-- Witness for C16: the record (1, `a,b`, 5, 2.5) is read back as (1, `a`, 0, 5.0). -/
theorem comma_name_not_reproduced_witness :
    (load_db (save_db
        { items := [⟨1, "a,b".toList, 5, Double.fin false 5629499534213120 (-51)⟩]
          next_id := 2, cin := none, cout := [], file := none })).items =
      [⟨1, "a".toList, 0, Double.fin false 5629499534213120 (-50)⟩] ∧
      (load_db (save_db
        { items := [⟨1, "a,b".toList, 5, Double.fin false 5629499534213120 (-51)⟩]
          next_id := 2, cin := none, cout := [], file := none })).items =
        [(⟨1, "a,b".toList, 5, Double.fin false 5629499534213120 (-51)⟩ : Item)].map reload ∧
      (⟨1, "a,b".toList, 5, Double.fin false 5629499534213120 (-51)⟩ : Item) ∉
        (load_db (save_db
          { items := [⟨1, "a,b".toList, 5, Double.fin false 5629499534213120 (-51)⟩]
            next_id := 2, cin := none, cout := [], file := none })).items :=
  ⟨by decide,
    (comma_name_not_reproduced
      { items := [⟨1, "a,b".toList, 5, Double.fin false 5629499534213120 (-51)⟩]
        next_id := 2, cin := none, cout := [], file := none }
      (by decide) (by decide)).1,
    (comma_name_not_reproduced
      { items := [⟨1, "a,b".toList, 5, Double.fin false 5629499534213120 (-51)⟩]
        next_id := 2, cin := none, cout := [], file := none }
      (by decide) (by decide)).2.1 _ (List.mem_singleton.mpr rfl) (by decide)⟩

/-! ## C17: what a round trip always keeps -/

/-- C17: for every collection whose names contain neither a comma nor a line break
(ids and quantities being values of `int`), and whatever the prices are, `save_db`
followed by `load_db` of the same file yields a collection of the same length whose
records carry, position by position, the same id, the same name and the same
quantity as the original. -/
theorem save_load_keeps_id_name_qty (s : State) (hint : ∀ it ∈ s.items, it.isInt)
    (hname : ∀ it ∈ s.items, ∀ c ∈ it.name, c ≠ ',' ∧ c ≠ '\n') :
    (load_db (save_db s)).items.length = s.items.length ∧
      ∀ i : Nat,
        ((load_db (save_db s)).items.get? i).map (fun it => (it.id, it.name, it.qty)) =
          (s.items.get? i).map (fun it => (it.id, it.name, it.qty)) := by
  have hl := load_saved_items s hint (fun it hit c hc => (hname it hit c hc).2)
  refine ⟨by rw [hl, List.length_map], fun i => ?_⟩
  rw [hl, List.get?_eq_getElem?, List.getElem?_map, ← List.get?_eq_getElem?]
  cases hg : s.items.get? i with
  | none => rfl
  | some it =>
    have hit := List.get?_mem hg
    simp only [Option.map_some', Option.some.injEq]
    rw [reload_plain it (hint it hit) (fun c hc => (hname it hit c hc).1)]

/-- Witness for C17: the price 1.2345678 does not come back, the rest does. -/
theorem save_load_keeps_id_name_qty_witness :
    (load_db (save_db
        { items := [⟨1, "Widget".toList, 5, Double.fin false 5559999084043613 (-52)⟩,
            ⟨-4, [], -3, Double.nan false⟩]
          next_id := 2, cin := none, cout := [], file := none })).items.length = 2 ∧
      ∀ i : Nat,
        ((load_db (save_db
          { items := [⟨1, "Widget".toList, 5, Double.fin false 5559999084043613 (-52)⟩,
              ⟨-4, [], -3, Double.nan false⟩]
            next_id := 2, cin := none, cout := [], file := none })).items.get? i).map
            (fun it => (it.id, it.name, it.qty)) =
          ([(⟨1, "Widget".toList, 5, Double.fin false 5559999084043613 (-52)⟩ : Item),
            ⟨-4, [], -3, Double.nan false⟩].get? i).map (fun it => (it.id, it.name, it.qty)) :=
  save_load_keeps_id_name_qty
    { items := [⟨1, "Widget".toList, 5, Double.fin false 5559999084043613 (-52)⟩,
        ⟨-4, [], -3, Double.nan false⟩]
      next_id := 2, cin := none, cout := [], file := none }
    (by decide) (by decide)

/-! ## C18: what `remove` leaves -/

/-- C18: for every store and every id (entered as a text that `is_number` accepts
and `std::stoi` converts to that id), `remove` leaves exactly the records whose id
differs from the given id, in their original order, so that all the records that
carry the id are removed, and it prints `Item removed.` if at least one record
carried the id and `Item not found.` otherwise. -/
theorem remove_item_filters (s : State) (id : Int)
    (hnum : is_number (getline s.cin [] '\n').2.1 = true)
    (hid : stoi (getline s.cin [] '\n').2.1 = some id) :
    remove_item s = Outcome.ok
      { items := s.items.filter (fun x => decide (x.id ≠ id))
        next_id := s.next_id
        cin := (getline s.cin [] '\n').2.2
        cout := s.cout ++ "Enter item id to remove: ".toList ++
          (if ∃ it ∈ s.items, it.id = id then "Item removed.\n".toList
            else "Item not found.\n".toList)
        file := s.file } := by
  unfold remove_item
  simp only [hnum, hid]
  by_cases hex : ∃ it ∈ s.items, it.id = id
  · have hlen : (s.items.filter (fun x => decide (x.id ≠ id))).length ≠ s.items.length := by
      intro h
      have hall := List.filter_eq_self.mp
        (List.Sublist.eq_of_length (List.filter_sublist s.items) h)
      obtain ⟨it, hit, hi⟩ := hex
      have := hall it hit
      simp [hi] at this
    rw [if_pos hlen, if_pos hex]
    rfl
  · have hf : s.items.filter (fun x => decide (x.id ≠ id)) = s.items :=
      List.filter_eq_self.mpr (fun a ha => by
        simp only [ne_eq, decide_not, Bool.not_eq_true', decide_eq_false_iff_not]
        exact fun e => hex ⟨a, ha, e⟩)
    have hlen : ¬ (s.items.filter (fun x => decide (x.id ≠ id))).length ≠ s.items.length := by
      rw [hf]
      exact fun h => h rfl
    rw [if_neg hlen, if_neg hex, hf]
    rfl

/-- Witness for C18: two of the three records carry the id 1 (a file can hold
duplicates); both are removed and the third stays. -/
theorem remove_item_filters_witness :
    remove_item
        { items := [⟨1, "a".toList, 1, Double.zero⟩, ⟨2, "b".toList, 2, Double.zero⟩,
            ⟨1, "c".toList, 3, Double.zero⟩]
          next_id := 3, cin := some "1\nlist\n".toList, cout := [], file := none } =
      Outcome.ok
        { items := [⟨2, "b".toList, 2, Double.zero⟩]
          next_id := 3
          cin := some "list\n".toList
          cout := "Enter item id to remove: ".toList ++ "Item removed.\n".toList
          file := none } :=
  remove_item_filters
    { items := [⟨1, "a".toList, 1, Double.zero⟩, ⟨2, "b".toList, 2, Double.zero⟩,
        ⟨1, "c".toList, 3, Double.zero⟩]
      next_id := 3, cin := some "1\nlist\n".toList, cout := [], file := none }
    1 (by decide) (by decide)

end Inventory
